import Mathlib

set_option autoImplicit false

/-!
Verification of the long-term fact memory engine of `chatbot.py`.

The engine manipulates Python JSON-like values (strings, numbers, booleans,
null, lists, dicts).  We embed them as the mutual inductive family
`PyVal` / `PyList` / `PyDict`.  Dicts are ordered association lists, matching
CPython's insertion-ordered dicts; assigning to an existing key keeps its
position, assigning a fresh key appends.  Python exceptions raised by the
engine (`KeyError`, `TypeError`, `AttributeError`) are modelled by `Except`
with the `PyErr` error type.  The wall-clock `timestamp()` of the source is
threaded explicitly as a `now : String` argument.

Caveats of the embedding, none of which is exercised by any claim below:
Python's numeric equality across `bool`/`int` (`True == 1`) is not modelled
(values of different constructors are never equal here), float literals
parsed from JSON are kept as their raw text, and `str.strip()` trims the
four whitespace characters recognised by `Char.isWhitespace` rather than
Python's six.
-/

mutual
inductive PyVal where
  | vstr (s : String)
  | vnum (n : Int)
  | vfloat (raw : String)
  | vbool (b : Bool)
  | vnull
  | vlist (xs : PyList)
  | vdict (kvs : PyDict)
  deriving DecidableEq

inductive PyList where
  | nil
  | cons (x : PyVal) (xs : PyList)
  deriving DecidableEq

inductive PyDict where
  | nil
  | cons (k : String) (v : PyVal) (rest : PyDict)
  deriving DecidableEq
end

/-- Python exception kinds raised by the engine. -/
inductive PyErr where
  | keyError
  | typeError
  | attributeError
  deriving DecidableEq

/-- Dictionary lookup, `d[k]` as an `Option`: first binding of the key wins. -/
def lookupKv : PyDict → String → Option PyVal
  | .nil, _ => none
  | .cons k v rest, key => if k = key then some v else lookupKv rest key

/-- Membership test `key in d`. -/
def hasKey (d : PyDict) (key : String) : Bool :=
  (lookupKv d key).isSome

/-- Assignment `d[key] = v`: update the first binding in place (CPython keeps
the key's position), append if the key is absent. -/
def insertKv : PyDict → String → PyVal → PyDict
  | .nil, key, v => .cons key v .nil
  | .cons k w rest, key, v =>
    if k = key then .cons k v rest else .cons k w (insertKv rest key v)

/-- Deletion `del d[key]`.  Python dicts have unique keys, so removing every
binding of the key coincides with `del` on every state reachable from Python. -/
def eraseKv : PyDict → String → PyDict
  | .nil, _ => .nil
  | .cons k v rest, key =>
    if k = key then eraseKv rest key else .cons k v (eraseKv rest key)

/-- Subscript `v[key]` on an arbitrary value: `KeyError` on a dict without the
key, `TypeError` on a non-dict. -/
def getItem (v : PyVal) (key : String) : Except PyErr PyVal :=
  match v with
  | .vdict kvs =>
    match lookupKv kvs key with
    | some x => .ok x
    | none => .error .keyError
  | _ => .error .typeError

/-- List append, used for `list.extend` / `list.append`. -/
def pyAppend : PyList → PyList → PyList
  | .nil, ys => ys
  | .cons x xs, ys => .cons x (pyAppend xs ys)

/-- View of a `PyList` as a Lean list, used in specification statements. -/
def pyToList : PyList → List PyVal
  | .nil => []
  | .cons x xs => x :: pyToList xs

/-- The canonical two-key fact entry dict built by the source:
`{"value": v, "timestamp": ts}`, keys in exactly that order. -/
def mkEntry (v ts : PyVal) : PyVal :=
  .vdict (.cons "value" v (.cons "timestamp" ts .nil))

theorem lookupKv_insertKv_self : ∀ (d : PyDict) (key : String) (v : PyVal),
    lookupKv (insertKv d key v) key = some v
  | .nil, key, v => by simp [insertKv, lookupKv]
  | .cons k w rest, key, v => by
    by_cases h : k = key
    · simp [insertKv, lookupKv, h]
    · simp [insertKv, lookupKv, h, lookupKv_insertKv_self rest key v]

theorem lookupKv_insertKv_ne : ∀ (d : PyDict) (key key2 : String) (v : PyVal),
    key2 ≠ key → lookupKv (insertKv d key v) key2 = lookupKv d key2
  | .nil, key, key2, v, h => by
    simp [insertKv, lookupKv, Ne.symm h]
  | .cons k w rest, key, key2, v, h => by
    by_cases hk : k = key
    · subst hk
      simp [insertKv, lookupKv, Ne.symm h]
    · by_cases hk2 : k = key2
      · simp [insertKv, lookupKv, hk, hk2, h]
      · simp [insertKv, lookupKv, hk, hk2, lookupKv_insertKv_ne rest key key2 v h]

theorem lookupKv_eraseKv_self : ∀ (d : PyDict) (key : String),
    lookupKv (eraseKv d key) key = none
  | .nil, key => by simp [eraseKv, lookupKv]
  | .cons k w rest, key => by
    by_cases h : k = key
    · simp [eraseKv, h, lookupKv_eraseKv_self rest key]
    · simp [eraseKv, lookupKv, h, lookupKv_eraseKv_self rest key]

theorem lookupKv_eraseKv_ne : ∀ (d : PyDict) (key key2 : String),
    key2 ≠ key → lookupKv (eraseKv d key) key2 = lookupKv d key2
  | .nil, key, key2, h => by simp [eraseKv]
  | .cons k w rest, key, key2, h => by
    by_cases hk : k = key
    · subst hk
      simp [eraseKv, lookupKv, Ne.symm h, lookupKv_eraseKv_ne rest k key2 h]
    · by_cases hk2 : k = key2
      · subst hk2
        simp [eraseKv, lookupKv, hk, Ne.symm h]
      · simp [eraseKv, lookupKv, hk, hk2, lookupKv_eraseKv_ne rest key key2 h]

/-!
The Normalizer, `normalize_facts` (chatbot.py lines 45-67).

`normalize_entry` wraps bare strings as `{"value": s, "timestamp": now}`,
accepts a dict carrying both `"value"` and `"timestamp"` keys after replacing
a dict-shaped value by `normalize_entry(value)["value"]` (a subscript that can
raise `KeyError`), treats any other dict as a nested category map, normalizes
list elements and flattens one level of nested lists, and passes every other
value through unchanged.

The recursion on the value found under `"value"` is folded into the walker
`normValField` so that the whole family is structurally recursive: the walker
traverses the dict and, at the first binding of `"value"`, applies the
source's `if isinstance(val, dict): val = normalize_entry(val)["value"]` rule.
-/

/-- Splice one level of nested lists, as the `flat_list` loops of the source
do with `extend` / `append`. -/
def flattenOnce : PyList → PyList
  | .nil => .nil
  | .cons (.vlist ys) rest => pyAppend ys (flattenOnce rest)
  | .cons x rest => .cons x (flattenOnce rest)

mutual
/-- Walker for the `val = entry["value"]; if isinstance(val, dict): val =
normalize_entry(val)["value"]` step: finds the first binding of `"value"` and
returns the (possibly recursively extracted) fact value. -/
def normValField (now : String) : PyDict → Except PyErr PyVal
  | .nil => .error .keyError
  | .cons k v rest =>
    if k = "value" then
      match v with
      | .vdict inner => do
        let nv ← normalize_entry now (.vdict inner)
        getItem nv "value"
      | _ => .ok v
    else normValField now rest

def normalize_entry (now : String) : PyVal → Except PyErr PyVal
  | .vstr s => .ok (mkEntry (.vstr s) (.vstr now))
  | .vdict kvs =>
    if hasKey kvs "value" && hasKey kvs "timestamp" then do
      let v ← normValField now kvs
      .ok (mkEntry v ((lookupKv kvs "timestamp").getD .vnull))
    else do
      .ok (.vdict (← normalizeVals now kvs))
  | .vlist xs => do
    .ok (.vlist (flattenOnce (← normalizeList now xs)))
  | v => .ok v

/-- The dict comprehension `{k: normalize_entry(v) for k, v in entry.items()}`
(keys of a Python dict are unique, so mapping over the bindings agrees with
the comprehension). -/
def normalizeVals (now : String) : PyDict → Except PyErr PyDict
  | .nil => .ok .nil
  | .cons k v rest => do
    let nv ← normalize_entry now v
    let nrest ← normalizeVals now rest
    .ok (.cons k nv nrest)

def normalizeList (now : String) : PyList → Except PyErr PyList
  | .nil => .ok .nil
  | .cons x xs => do
    let nx ← normalize_entry now x
    let nxs ← normalizeList now xs
    .ok (.cons nx nxs)
end

/-- Top-level `normalize_facts` (chatbot.py line 67): normalize every
category's value. -/
def normalize_facts (now : String) (facts : PyDict) : Except PyErr PyDict :=
  normalizeVals now facts

/-!
The Merger, `merge_facts` (chatbot.py lines 69-118).

Per candidate pair `(k, v)`: a list value is merged element by element
(`merge_facts(existing, {k: item})`); otherwise the scalar fact value is
`v["value"]` if `v` is a dict carrying that key, else `v` itself, and a fresh
`{"value": fact_value, "timestamp": now}` entry is built.  Singleton
categories are overwritten unconditionally.  For `Preference` / `Dislike`
the opposite category is scanned and entries with an equal value are removed
(`del`eting the key when a list is emptied, or when a single equal entry is
removed).  Otherwise the category's current holding is promoted to a flat
list and the fresh entry appended only when no existing entry carries an
equal value.
-/

def SINGLETON_CATEGORIES : List String :=
  ["Age", "Name", "Gender", "Location", "Nationality", "Ethnicity", "Mood"]

/-- The scalar fact value of a candidate:
`v["value"] if isinstance(v, dict) and "value" in v else v`. -/
def factValueOf (v : PyVal) : PyVal :=
  match v with
  | .vdict kvs =>
    match lookupKv kvs "value" with
    | some fv => fv
    | none => .vdict kvs
  | v => v

/-- The list comprehension `[d for d in existing[opp] if d["value"] != fv]`;
subscripting a non-entry element raises. -/
def filterNeVal : PyList → PyVal → Except PyErr PyList
  | .nil, _ => .ok .nil
  | .cons d rest, fv => do
    let dv ← getItem d "value"
    let tail ← filterNeVal rest fv
    if dv = fv then .ok tail else .ok (.cons d tail)

/-- Contradiction handling for one direction (chatbot.py lines 87-100):
remove entries of the opposite category whose value equals the new scalar,
dropping the key when the list empties or a single equal entry is removed. -/
def removeOpposite (ex : PyDict) (opp : String) (fv : PyVal) : Except PyErr PyDict :=
  match lookupKv ex opp with
  | none => .ok ex
  | some (.vlist ds) => do
    let kept ← filterNeVal ds fv
    if kept = .nil then .ok (eraseKv ex opp)
    else .ok (insertKv ex opp (.vlist kept))
  | some d => do
    let dv ← getItem d "value"
    if dv = fv then .ok (eraseKv ex opp) else .ok ex

/-- Short-circuiting `all(entry["value"] != fact_value for entry in existing[k])`. -/
def allValuesNe : PyList → PyVal → Except PyErr Bool
  | .nil, _ => .ok true
  | .cons e rest, fv => do
    let ev ← getItem e "value"
    if ev = fv then .ok false else allValuesNe rest fv

/-- The tail of the multi-value branch: `existing[k]` has been replaced by the
flat list `lst`; append the fresh entry only when no existing entry carries an
equal value. -/
def appendIfNew (ex : PyDict) (k : String) (lst : PyList) (fv newFact : PyVal) :
    Except PyErr PyDict := do
  let b ← allValuesNe lst fv
  if b then .ok (insertKv ex k (.vlist (pyAppend lst (.cons newFact .nil))))
  else .ok (insertKv ex k (.vlist lst))

/-- The accumulate block of the loop (`if k in existing: ... else: ...`): an
existing dict is promoted to a one-element list, an existing list is
flattened one level, and the fresh entry appended only when no existing entry
carries an equal value.  An existing non-empty string makes the flat-list
loop iterate its characters and `entry["value"]` then raises; an existing
non-iterable raises at the loop itself — both are `.error`.  Iterating an
empty string yields the empty flat list. -/
def mergeTail (ex2 : PyDict) (k : String) (fv newFact : PyVal) :
    Except PyErr PyDict :=
  match lookupKv ex2 k with
  | some (.vdict d) => appendIfNew ex2 k (.cons (.vdict d) .nil) fv newFact
  | some (.vlist xs) => appendIfNew ex2 k (flattenOnce xs) fv newFact
  | some (.vstr s) =>
    if s = "" then appendIfNew ex2 k .nil fv newFact else .error .typeError
  | some _ => .error .typeError
  | none => .ok (insertKv ex2 k newFact)

/-- One candidate pair with a non-list value (the body of the loop of
`merge_facts` after the list case): singleton overwrite, else the
contradiction step followed by the accumulate block. -/
def mergeScalarStep (now : String) (ex : PyDict) (k : String) (v : PyVal) :
    Except PyErr PyDict :=
  let fv := factValueOf v
  let newFact := mkEntry fv (.vstr now)
  if k ∈ SINGLETON_CATEGORIES then .ok (insertKv ex k newFact)
  else
    match
      (if k = "Preference" then removeOpposite ex "Dislike" fv
       else if k = "Dislike" then removeOpposite ex "Preference" fv
       else .ok ex) with
    | .error e => .error e
    | .ok ex2 => mergeTail ex2 k fv newFact

mutual
/-- Merge one candidate pair: lists recurse element by element, as
`merge_facts(existing, {k: item})` does in the source. -/
def mergeOne (now : String) (ex : PyDict) (k : String) : PyVal → Except PyErr PyDict
  | .vlist xs => mergeList now ex k xs
  | v => mergeScalarStep now ex k v

def mergeList (now : String) (ex : PyDict) (k : String) : PyList → Except PyErr PyDict
  | .nil => .ok ex
  | .cons x xs => do mergeList now (← mergeOne now ex k x) k xs
end

/-- The loop of `merge_facts` over the candidate dict's items. -/
def merge_facts (now : String) (ex : PyDict) : PyDict → Except PyErr PyDict
  | .nil => .ok ex
  | .cons k v rest => do merge_facts now (← mergeOne now ex k v) rest

/-!
The Deduplicator, `dedupe_facts` (chatbot.py lines 120-132).

For every list-valued category, scan the entries in order; an entry whose
lowercase-trimmed value is a substring of, or contains, any already-accepted
value (`val in other or other in val`) is dropped, otherwise it is accepted
and its value added to `seen`.  Non-list categories are left untouched.
`entry["value"].strip().lower()` raises on a non-entry element or a
non-string value.
-/

/-- Character-list prefix test (the building block of Python's `in` on
strings). -/
def listIsPre : List Char → List Char → Bool
  | [], _ => true
  | _ :: _, [] => false
  | a :: as, b :: bs => a == b && listIsPre as bs

/-- Python's substring containment `a in b` on character lists. -/
def listIsSub : List Char → List Char → Bool
  | as, [] => listIsPre as []
  | as, b :: bs => listIsPre as (b :: bs) || listIsSub as bs

/-- Python's `s.strip()`: drop leading and trailing whitespace. -/
def listStrip (cs : List Char) : List Char :=
  ((cs.dropWhile Char.isWhitespace).reverse.dropWhile Char.isWhitespace).reverse

/-- Python's `s.strip().lower()` as a character list. -/
def pyLowerTrim (s : String) : List Char :=
  (listStrip s.toList).map Char.toLower

/-- Containment in either direction, `val in other or other in val`. -/
def containsEitherWay (val other : List Char) : Bool :=
  listIsSub val other || listIsSub other val

/-- The scan of one list-valued category with its `seen` accumulator. -/
def dedupeList : PyList → List (List Char) → Except PyErr PyList
  | .nil, _ => .ok .nil
  | .cons e rest, seen => do
    let ev ← getItem e "value"
    match ev with
    | .vstr s =>
      let val := pyLowerTrim s
      if seen.any (fun other => containsEitherWay val other) then
        dedupeList rest seen
      else do
        let u ← dedupeList rest (seen ++ [val])
        .ok (.cons e u)
    | _ => .error .attributeError

/-- The action of `dedupe_facts` on one category's value: a list is
deduplicated (with an initially empty `seen`), everything else untouched. -/
def dedupeVal : PyVal → Except PyErr PyVal
  | .vlist xs => do
    let u ← dedupeList xs []
    .ok (.vlist u)
  | v => .ok v

/-- The loop of `dedupe_facts` over the store's items, in order. -/
def dedupe_facts : PyDict → Except PyErr PyDict
  | .nil => .ok .nil
  | .cons k v rest => do
    let nv ← dedupeVal v
    let nrest ← dedupe_facts rest
    .ok (.cons k nv nrest)

/-!
The Pattern Extractor (chatbot.py lines 134-173).

The fixed regular expressions of the source are modelled pattern by pattern
on character lists.  All searches are case-insensitive (`re.IGNORECASE`):
literals are stored lowercase and input characters are lowercased before
comparison.  `re.search` semantics: candidate start positions are tried left
to right and the first position admitting a match wins.

Greedy quantifiers with backtracking are modelled exactly where the
distinction matters.  In `\s+([A-Za-z0-9_ ]+)` the space character belongs to
both `\s` and the capture class, so the engine first lets `\s+` swallow the
maximal whitespace run and then gives back trailing spaces one at a time
until the capture is non-empty (`tryCapFrom`).  In `\s+` followed by a
literal such as `call me` or `feeling`, or by the letter class `[a-zA-Z]+`,
no shorter split can succeed, because every shorter split places a whitespace
character where a non-whitespace character is required; those tails therefore
test only the maximal split.  A capture `([a-zA-Z]+)\b` succeeds exactly when
the maximal letter run is non-empty and followed by a non-word character or
the end: every shorter capture ends directly before a letter, which is a word
character, so `\b` fails there.
-/

/-- The apostrophe character, used by several pattern literals. -/
def apoCh : Char := Char.ofNat 39

/-- The regex word class `\w` (ASCII), used for `\b` boundaries. -/
def isWordCh (c : Char) : Bool := c.isAlphanum || c == '_'

/-- The capture class `[A-Za-z0-9_ ]` of the name patterns. -/
def isNameCh (c : Char) : Bool := c.isAlphanum || c == '_' || c == ' '

/-- Case-insensitive literal match at the head; returns the remainder. -/
def matchLit : List Char → List Char → Option (List Char)
  | [], cs => some cs
  | _ :: _, [] => none
  | p :: ps, c :: cs => if c.toLower == p then matchLit ps cs else none

/-- Length of the maximal leading whitespace run (`\s+` greedy). -/
def wsCount : List Char → Nat
  | [] => 0
  | c :: cs => if c.isWhitespace then wsCount cs + 1 else 0

/-- The maximal leading run of characters in the class `p`. -/
def classRun (p : Char → Bool) : List Char → List Char
  | [] => []
  | c :: cs => if p c then c :: classRun p cs else []

/-- Backtracking for `\s+([A-Za-z0-9_ ]+)`: try capture start positions from
the maximal whitespace split down to one whitespace character. -/
def tryCapFrom (cs : List Char) : Nat → Option (List Char)
  | 0 => none
  | Nat.succ m =>
    let cap := classRun isNameCh (cs.drop (m + 1))
    if cap.isEmpty then tryCapFrom cs m else some cap

/-- Match `\s+([A-Za-z0-9_ ]+)` at the head of `cs` and return the capture. -/
def capAfterWs (cs : List Char) : Option (List Char) :=
  tryCapFrom cs (wsCount cs)

/-- Match one name pattern (`literal` then `\s+([A-Za-z0-9_ ]+)`) here. -/
def nameCapHere (lit : List Char) (cs : List Char) : Option (List Char) :=
  (matchLit lit cs).bind capAfterWs

/-- Scan start positions left to right, `re.search` style. -/
def searchPlain (f : List Char → Option (List Char)) : List Char → Option (List Char)
  | [] => none
  | c :: cs =>
    match f (c :: cs) with
    | some cap => some cap
    | none => searchPlain f cs

def callMeLit : List Char := "call me".toList

def myNameIsLit : List Char := "my name is".toList

def iGoByLit : List Char := "i go by".toList

def imCalledLit : List Char := ['i', apoCh, 'm'] ++ " called".toList

def iAmCalledLit : List Char := "i am called".toList

/-- The alternatives of `(?:don't|do not|never|not)` in source order. -/
def negAlternatives : List (List Char) :=
  [['d', 'o', 'n', apoCh, 't'], "do not".toList, "never".toList, "not".toList]

/-- Tail of the negation pattern after an alternative: `\s+call me\s+([A-Za-z0-9_ ]+)`.
Only the maximal `\s+` split can be followed by the literal `call me`. -/
def negTail (rem : List Char) : Bool :=
  let n := wsCount rem
  if n = 0 then false
  else
    match matchLit callMeLit (rem.drop n) with
    | some rem2 => (capAfterWs rem2).isSome
    | none => false

/-- The negation pattern `(?:don't|do not|never|not)\s+call me\s+([A-Za-z0-9_ ]+)`
matched at this position (alternatives tried left to right). -/
def negHere (cs : List Char) : Bool :=
  negAlternatives.any fun lit =>
    match matchLit lit cs with
    | some rem => negTail rem
    | none => false

/-- Whether the negation pattern matches anywhere in the input. -/
def searchNegB : List Char → Bool
  | [] => false
  | c :: cs => negHere (c :: cs) || searchNegB cs

/-- The first name pattern (source order) matching anywhere in the input,
with its capture. -/
def firstNameCap (cs : List Char) : Option (List Char) :=
  searchPlain (nameCapHere callMeLit) cs <|>
  searchPlain (nameCapHere myNameIsLit) cs <|>
  searchPlain (nameCapHere iGoByLit) cs <|>
  searchPlain (nameCapHere imCalledLit) cs <|>
  searchPlain (nameCapHere iAmCalledLit) cs

/-- Capture `([a-zA-Z]+)\b` at the head: the maximal letter run, non-empty and
followed by a non-word character or the end. -/
def capLettersBoundary (cs : List Char) : Option (List Char) :=
  let cap := classRun Char.isAlpha cs
  if cap.isEmpty then none
  else
    match cs.drop cap.length with
    | [] => some cap
    | c :: _ => if isWordCh c then none else some cap

/-- Match `\s+([a-zA-Z]+)\b` at the head of `rem` and return the capture. -/
def moodCapAfter (rem : List Char) : Option (List Char) :=
  let n := wsCount rem
  if n = 0 then none else capLettersBoundary (rem.drop n)

/-- Mood patterns 1-3: `literal` then optionally `optLit` (greedy, tried
first), then `\s+([a-zA-Z]+)\b`. -/
def moodHereLit (lit : List Char) (optLit : Option (List Char)) (cs : List Char) :
    Option (List Char) :=
  match matchLit lit cs with
  | none => none
  | some rem =>
    (match optLit with
     | some ol =>
       match matchLit ol rem with
       | some rem2 => moodCapAfter rem2
       | none => none
     | none => none) <|> moodCapAfter rem

def feelingLit : List Char := "feeling".toList

/-- Mood patterns 4-5 tail: `\s+(?:feeling\s+)?([a-zA-Z]+)\b` (the optional
group tried first, greedy). -/
def moodTail45 (rem : List Char) : Option (List Char) :=
  let n := wsCount rem
  if n = 0 then none
  else
    let rem2 := rem.drop n
    (match matchLit feelingLit rem2 with
     | some rem3 => moodCapAfter rem3
     | none => none) <|> capLettersBoundary rem2

/-- Mood patterns 4-5: `literal` then `\s+(?:feeling\s+)?([a-zA-Z]+)\b`. -/
def moodHere45 (lit : List Char) (cs : List Char) : Option (List Char) :=
  (matchLit lit cs).bind moodTail45

/-- A `\b` before the pattern: start of input or a preceding non-word
character (every mood pattern starts with a word character). -/
def boundaryOkBefore : Option Char → Bool
  | none => true
  | some p => !isWordCh p

/-- Scan start positions, admitting only those preceded by a word boundary. -/
def searchWithBoundary (f : List Char → Option (List Char)) :
    Option Char → List Char → Option (List Char)
  | _, [] => none
  | prev, c :: cs =>
    match (if boundaryOkBefore prev then f (c :: cs) else none) with
    | some cap => some cap
    | none => searchWithBoundary f (some c) cs

/-- The first mood pattern (source order) matching anywhere, with capture. -/
def firstMoodCap (cs : List Char) : Option (List Char) :=
  searchWithBoundary (moodHereLit "i feel".toList (some " like".toList)) none cs <|>
  searchWithBoundary (moodHereLit "i felt".toList none) none cs <|>
  searchWithBoundary (moodHereLit "that made me".toList none) none cs <|>
  searchWithBoundary (moodHere45 "i am".toList) none cs <|>
  searchWithBoundary (moodHere45 ['i', apoCh, 'm']) none cs

/-- The deterministic prefix of `extract_facts` (chatbot.py lines 134-173):
negation guard, then name patterns, then mood patterns, each followed by
`dedupe_facts`; `none` means fall through to the oracle gateway. -/
def extract_facts_fast (user_input : String) (existing : PyDict) (now : String) :
    Option (Except PyErr PyDict) :=
  let cs := user_input.toList
  if searchNegB cs then some (.ok existing)
  else
    match firstNameCap cs with
    | some cap =>
      some (dedupe_facts
        (insertKv existing "Name" (mkEntry (.vstr (String.mk (listStrip cap))) (.vstr now))))
    | none =>
      match firstMoodCap cs with
      | some cap =>
        some (dedupe_facts
          (insertKv existing "Mood" (mkEntry (.vstr (String.mk (listStrip cap))) (.vstr now))))
      | none => none

/-!
The Extraction Oracle Gateway (chatbot.py lines 199-212).

The oracle's response text is fed to `json.loads`; a `JSONDecodeError` (or a
`KeyError` on the response envelope) is caught and the existing store is
returned unchanged.  A response that parses to a non-object JSON value is
*not* guarded: it reaches `merge_facts(existing_facts, new_facts)` whose
`new.items()` raises an uncaught `AttributeError`.

`json.loads` is modelled by a fuel-indexed recursive-descent parser for the
JSON grammar (RFC 8259 as implemented by Python's strict decoder: no leading
zeros, no trailing garbage, `\uXXXX` escapes).  Numbers with a fraction or
exponent become Python floats, kept here as their raw literal text; integer
literals become `vnum`.  Duplicate object keys follow CPython: the later
value wins at the position of the first occurrence (`insertKv`).
-/

def quoteCh : Char := Char.ofNat 34

def backslashCh : Char := Char.ofNat 92

def lbraceCh : Char := Char.ofNat 123

def rbraceCh : Char := Char.ofNat 125

/-- JSON insignificant whitespace: space, tab, line feed, carriage return. -/
def skipWs : List Char → List Char
  | [] => []
  | c :: cs =>
    if c == ' ' || c == '\t' || c == '\n' || c == '\r' then skipWs cs else c :: cs

def hexVal : Char → Option Nat := fun c =>
  if '0' ≤ c && c ≤ '9' then some (c.toNat - 48)
  else if 'a' ≤ c && c ≤ 'f' then some (c.toNat - 87)
  else if 'A' ≤ c && c ≤ 'F' then some (c.toNat - 55)
  else none

/-- Decode one escape sequence after a backslash. -/
def decodeEscape : List Char → Option (Char × List Char)
  | [] => none
  | e :: rest =>
    if e == quoteCh then some (quoteCh, rest)
    else if e == backslashCh then some (backslashCh, rest)
    else if e == '/' then some ('/', rest)
    else if e == 'b' then some (Char.ofNat 8, rest)
    else if e == 'f' then some (Char.ofNat 12, rest)
    else if e == 'n' then some ('\n', rest)
    else if e == 'r' then some ('\r', rest)
    else if e == 't' then some ('\t', rest)
    else if e == 'u' then
      match rest with
      | h1 :: h2 :: h3 :: h4 :: rest2 => do
        let a ← hexVal h1
        let b ← hexVal h2
        let c ← hexVal h3
        let d ← hexVal h4
        some (Char.ofNat (((a * 16 + b) * 16 + c) * 16 + d), rest2)
      | _ => none
    else none

/-- Case-sensitive literal match, for the JSON keywords. -/
def matchExact : List Char → List Char → Option (List Char)
  | [], cs => some cs
  | _ :: _, [] => none
  | p :: ps, c :: cs => if c == p then matchExact ps cs else none

/-- Parse the characters of a JSON string after the opening quote. -/
def parseStrChars : Nat → List Char → Option (List Char × List Char)
  | 0, _ => none
  | _ + 1, [] => none
  | fuel + 1, c :: rest =>
    if c == quoteCh then some ([], rest)
    else if c == backslashCh then do
      let (d, rest2) ← decodeEscape rest
      let (chs, rest3) ← parseStrChars fuel rest2
      some (d :: chs, rest3)
    else do
      let (chs, rest2) ← parseStrChars fuel rest
      some (c :: chs, rest2)

def digitSpan : List Char → List Char × List Char
  | [] => ([], [])
  | c :: cs =>
    if c.isDigit then
      let (ds, rest) := digitSpan cs
      (c :: ds, rest)
    else ([], c :: cs)

def digitsToNat (ds : List Char) : Nat :=
  ds.foldl (fun a c => a * 10 + (c.toNat - 48)) 0

/-- Optional fraction part; `none` signals a malformed number such as `1.`. -/
def parseFrac : List Char → Option (List Char × List Char)
  | '.' :: t =>
    match digitSpan t with
    | ([], _) => none
    | (ds, rest) => some ('.' :: ds, rest)
  | cs => some (([] : List Char), cs)

/-- Optional exponent part; `none` signals a malformed number such as `1e`. -/
def parseExp : List Char → Option (List Char × List Char)
  | c :: t =>
    if c == 'e' || c == 'E' then
      let (sn, t2) : List Char × List Char :=
        match t with
        | s :: u => if s == '+' || s == '-' then ([s], u) else ([], t)
        | [] => ([], [])
      match digitSpan t2 with
      | ([], _) => none
      | (ds, rest) => some (c :: (sn ++ ds), rest)
    else some ([], c :: t)
  | [] => some ([], [])

/-- Parse a JSON number: integers become `vnum`, anything with a fraction or
exponent becomes a float kept as raw text. -/
def parseNumber (cs : List Char) : Option (PyVal × List Char) :=
  let (sgn, cs1) : List Char × List Char :=
    match cs with
    | c :: t => if c == '-' then ([c], t) else ([], cs)
    | [] => ([], [])
  match digitSpan cs1 with
  | ([], _) => none
  | (ds, cs2) =>
    if ds.length > 1 && ds.headD '0' == '0' then none
    else do
      let (fr, cs3) ← parseFrac cs2
      let (ex, cs4) ← parseExp cs3
      if fr.isEmpty && ex.isEmpty then
        let n : Int := Int.ofNat (digitsToNat ds)
        some (.vnum (if sgn.isEmpty then n else -n), cs4)
      else
        some (.vfloat (String.mk (sgn ++ ds ++ fr ++ ex)), cs4)

mutual
def parseVal : Nat → List Char → Option (PyVal × List Char)
  | 0, _ => none
  | fuel + 1, cs =>
    match skipWs cs with
    | [] => none
    | c :: rest =>
      if c == quoteCh then do
        let (chs, r) ← parseStrChars fuel rest
        some (.vstr (String.mk chs), r)
      else if c == '[' then
        match skipWs rest with
        | ']' :: r => some (.vlist .nil, r)
        | cs2 => do
          let (xs, r) ← parseArrElems fuel cs2
          some (.vlist xs, r)
      else if c == lbraceCh then
        match skipWs rest with
        | c2 :: r =>
          if c2 == rbraceCh then some (.vdict .nil, r)
          else do
            let (kvs, r2) ← parseObjItems fuel .nil (c2 :: r)
            some (.vdict kvs, r2)
        | [] => none
      else
        match matchExact "true".toList (c :: rest) with
        | some r => some (.vbool true, r)
        | none =>
          match matchExact "false".toList (c :: rest) with
          | some r => some (.vbool false, r)
          | none =>
            match matchExact "null".toList (c :: rest) with
            | some r => some (.vnull, r)
            | none => parseNumber (c :: rest)

/-- One or more comma-separated array elements followed by `]`. -/
def parseArrElems : Nat → List Char → Option (PyList × List Char)
  | 0, _ => none
  | fuel + 1, cs => do
    let (v, cs2) ← parseVal fuel cs
    match skipWs cs2 with
    | c :: rest =>
      if c == ',' then do
        let (vs, cs3) ← parseArrElems fuel rest
        some (.cons v vs, cs3)
      else if c == ']' then some (.cons v .nil, rest)
      else none
    | [] => none

/-- One or more `"key": value` object items followed by the closing brace. -/
def parseObjItems : Nat → PyDict → List Char → Option (PyDict × List Char)
  | 0, _, _ => none
  | fuel + 1, acc, cs =>
    match skipWs cs with
    | c :: rest =>
      if c == quoteCh then do
        let (kchs, cs2) ← parseStrChars fuel rest
        match skipWs cs2 with
        | c2 :: rest2 =>
          if c2 == ':' then do
            let (v, cs3) ← parseVal fuel rest2
            let acc2 := insertKv acc (String.mk kchs) v
            match skipWs cs3 with
            | c3 :: rest3 =>
              if c3 == ',' then parseObjItems fuel acc2 rest3
              else if c3 == rbraceCh then some (acc2, rest3)
              else none
            | [] => none
          else none
        | [] => none
      else none
    | [] => none
end

/-- The whole of `json.loads` on the response text: one JSON value with
nothing but whitespace around it. -/
def parseJson (s : String) : Option PyVal :=
  let cs := s.toList
  match parseVal (cs.length + 2) cs with
  | some (v, rest) => if skipWs rest = [] then some v else none
  | none => none

/-- The gateway (chatbot.py lines 199-212): parse failure is caught and the
existing store returned; a parsed object is merged and deduplicated; a parsed
non-object reaches `new.items()` and raises. -/
def extract_facts_gateway (response : String) (existing : PyDict) (now : String) :
    Except PyErr PyDict :=
  match parseJson response with
  | none => .ok existing
  | some (.vdict new_facts) => do
    dedupe_facts (← merge_facts now existing new_facts)
  | some _ => .error .attributeError

/-- The whole of `extract_facts` for one turn, with the oracle's response
text supplied at the embedding boundary: the deterministic patterns run
first; only on fall-through is the oracle's response consulted. -/
def extract_facts_with_response (user_input : String) (existing : PyDict)
    (now : String) (response : String) : Except PyErr PyDict :=
  match extract_facts_fast user_input existing now with
  | some r => r
  | none => extract_facts_gateway response existing now

/-!
Modelled from the spec: the Significance Scorer and Pruner of section 4.6.

No pruning, significance scoring or `MAX_FACTS` capacity appears anywhere in
`src/` (the two source files merge and dedupe only); the spec consolidates
that component from drafts of the repository that are not part of `src/`.
Following the spec's words: flatten the whole store into `(category, entry)`
pairs, sort descending by `(significance, timestamp)` (higher significance
first, more recent timestamp first among equals), keep the first `MAX_FACTS`
pairs, and rebuild the store, re-grouping kept entries that share a category
in sorted order.
-/

/-- Modelled from the spec: a canonical fact entry with its significance
score, as the Scorer/Pruner of spec section 4.6 sees it. -/
structure FactRec where
  value : String
  timestamp : String
  significance : Nat
  deriving DecidableEq

/-- Modelled from the spec: a store as seen by the Pruner — categories in
order, each holding its ordered entries. -/
abbrev SpecStore := List (String × List FactRec)

/-- Flatten the whole store into a list of `(category, entry)` pairs. -/
def flattenStore : SpecStore → List (String × FactRec)
  | [] => []
  | (c, es) :: t => (es.map fun e => (c, e)) ++ flattenStore t

/-- The sort key of a pair: `(significance, timestamp)`. -/
def pruneKey (p : String × FactRec) : Nat × String :=
  (p.2.significance, p.2.timestamp)

/-- Code-point lexicographic comparison of strings as character lists (the
order Python uses on the ISO timestamp strings). -/
def chListLe : List Char → List Char → Bool
  | [], _ => true
  | _ :: _, [] => false
  | a :: as, b :: bs =>
    if a.toNat < b.toNat then true
    else if a == b then chListLe as bs
    else false

/-- Lexicographic order on `(significance, timestamp)` keys. -/
def keyLe (a b : Nat × String) : Prop :=
  a.1 < b.1 ∨ (a.1 = b.1 ∧ chListLe a.2.toList b.2.toList = true)

/-- Descending comparison on pairs: `p` sorts no later than `q` when `q`'s
key is at most `p`'s. -/
def pruneGe (p q : String × FactRec) : Prop :=
  keyLe (pruneKey q) (pruneKey p)

instance (a b : Nat × String) : Decidable (keyLe a b) := by
  unfold keyLe
  infer_instance

instance : DecidableRel pruneGe := fun p q => by
  unfold pruneGe
  infer_instance

theorem charEqOfToNatEq {a b : Char} (h : a.toNat = b.toNat) : a = b := by
  apply Char.eq_of_val_eq
  apply UInt32.eq_of_toBitVec_eq
  have h2 : a.val.toBitVec.toNat = b.val.toBitVec.toNat := h
  exact BitVec.toNat_injective h2

theorem chListLe_total : ∀ a b : List Char, chListLe a b = true ∨ chListLe b a = true
  | [], _ => Or.inl rfl
  | _ :: _, [] => Or.inr rfl
  | a :: as, b :: bs => by
    rcases Nat.lt_trichotomy a.toNat b.toNat with h | h | h
    · exact Or.inl (by simp [chListLe, h])
    · have hab : a = b := charEqOfToNatEq h
      subst hab
      rcases chListLe_total as bs with h2 | h2
      · exact Or.inl (by simp [chListLe, h2])
      · exact Or.inr (by simp [chListLe, h2])
    · exact Or.inr (by simp [chListLe, h])

theorem chListLe_trans : ∀ {a b c : List Char},
    chListLe a b = true → chListLe b c = true → chListLe a c = true
  | [], _, _, _, _ => rfl
  | _ :: _, [], _, h1, _ => by simp [chListLe] at h1
  | _ :: _, _ :: _, [], _, h2 => by simp [chListLe] at h2
  | a :: as, b :: bs, c :: cs, h1, h2 => by
    simp only [chListLe] at h1 h2 ⊢
    by_cases hab : a.toNat < b.toNat
    · by_cases hbc : b.toNat < c.toNat
      · simp [Nat.lt_trans hab hbc]
      · simp only [if_neg hbc] at h2
        by_cases hbceq : b == c
        · have : b = c := by simpa using hbceq
          subst this
          simp [hab]
        · simp [hbceq] at h2
    · simp only [if_neg hab] at h1
      by_cases habeq : a == b
      · have : a = b := by simpa using habeq
        subst this
        simp only [if_pos habeq] at h1
        by_cases hbc : a.toNat < c.toNat
        · simp [hbc]
        · simp only [if_neg hbc] at h2 ⊢
          by_cases hbceq : a == c
          · have hac : a = c := by simpa using hbceq
            subst hac
            simp only [if_pos hbceq] at h2
            simp [chListLe_trans h1 h2]
          · simp [hbceq] at h2
      · simp [habeq] at h1

theorem keyLe_total (a b : Nat × String) : keyLe a b ∨ keyLe b a := by
  rcases lt_trichotomy a.1 b.1 with h | h | h
  · exact Or.inl (Or.inl h)
  · rcases chListLe_total a.2.toList b.2.toList with h2 | h2
    · exact Or.inl (Or.inr ⟨h, h2⟩)
    · exact Or.inr (Or.inr ⟨h.symm, h2⟩)
  · exact Or.inr (Or.inl h)

theorem keyLe_trans {a b c : Nat × String} (h1 : keyLe a b) (h2 : keyLe b c) :
    keyLe a c := by
  rcases h1 with h1 | ⟨h1, h1b⟩
  · rcases h2 with h2 | ⟨h2, h2b⟩
    · exact Or.inl (h1.trans h2)
    · exact Or.inl (h2 ▸ h1)
  · rcases h2 with h2 | ⟨h2, h2b⟩
    · exact Or.inl (h1 ▸ h2)
    · exact Or.inr ⟨h1.trans h2, chListLe_trans h1b h2b⟩

instance : IsTotal (String × FactRec) pruneGe :=
  ⟨fun p q => (keyLe_total (pruneKey q) (pruneKey p)).imp id id⟩

instance : IsTrans (String × FactRec) pruneGe :=
  ⟨fun _ _ _ h1 h2 => keyLe_trans h2 h1⟩

/-- Sorting descending by `(significance, timestamp)`. -/
def sortDesc (l : List (String × FactRec)) : List (String × FactRec) :=
  l.insertionSort pruneGe

/-- Re-grouping: route one kept pair to its category, appending the category
at the end when new. -/
def addPair : SpecStore → String → FactRec → SpecStore
  | [], c, e => [(c, [e])]
  | (c2, es) :: t, c, e =>
    if c2 = c then (c2, es ++ [e]) :: t else (c2, es) :: addPair t c e

/-- Rebuild a store from kept pairs, re-grouping shared categories in the
kept (sorted) order. -/
def regroup (ps : List (String × FactRec)) : SpecStore :=
  ps.foldl (fun st p => addPair st p.1 p.2) []

/-- Modelled from the spec: the Pruner — keep only the first `maxFacts` pairs
of the descending sort and rebuild the store. -/
def prune_facts (maxFacts : Nat) (st : SpecStore) : SpecStore :=
  regroup ((sortDesc (flattenStore st)).take maxFacts)

theorem flattenStore_addPair_perm : ∀ (st : SpecStore) (c : String) (e : FactRec),
    (flattenStore (addPair st c e)).Perm (flattenStore st ++ [(c, e)])
  | [], c, e => by simp [addPair, flattenStore]
  | (c2, es) :: t, c, e => by
    by_cases h : c2 = c
    · subst h
      have h1 : flattenStore (addPair ((c2, es) :: t) c2 e)
          = (es.map fun e2 => (c2, e2)) ++ ([(c2, e)] ++ flattenStore t) := by
        simp [addPair, flattenStore, List.append_assoc]
      have h2 : flattenStore ((c2, es) :: t) ++ [(c2, e)]
          = (es.map fun e2 => (c2, e2)) ++ (flattenStore t ++ [(c2, e)]) := by
        simp [flattenStore, List.append_assoc]
      rw [h1, h2]
      exact List.Perm.append_left _ List.perm_append_comm
    · have h1 : flattenStore (addPair ((c2, es) :: t) c e)
          = (es.map fun e2 => (c2, e2)) ++ flattenStore (addPair t c e) := by
        simp [addPair, h, flattenStore]
      have h2 : flattenStore ((c2, es) :: t) ++ [(c, e)]
          = (es.map fun e2 => (c2, e2)) ++ (flattenStore t ++ [(c, e)]) := by
        simp [flattenStore, List.append_assoc]
      rw [h1, h2]
      exact List.Perm.append_left _ (flattenStore_addPair_perm t c e)

theorem flattenStore_foldl_perm : ∀ (ps : List (String × FactRec)) (st : SpecStore),
    (flattenStore (ps.foldl (fun st2 p => addPair st2 p.1 p.2) st)).Perm
      (flattenStore st ++ ps)
  | [], st => by simp
  | p :: ps, st => by
    simp only [List.foldl_cons]
    refine (flattenStore_foldl_perm ps (addPair st p.1 p.2)).trans ?_
    have h2 := (flattenStore_addPair_perm st p.1 p.2).append_right ps
    have h3 : (flattenStore st ++ [(p.1, p.2)]) ++ ps = flattenStore st ++ p :: ps := by
      simp
    rw [h3] at h2
    exact h2

theorem flattenStore_regroup_perm (ps : List (String × FactRec)) :
    (flattenStore (regroup ps)).Perm ps := by
  simpa [regroup, flattenStore] using flattenStore_foldl_perm ps []

/-- C1: after pruning, the store holds at most `MAX_FACTS` `(category, entry)`
pairs, and the kept pairs are exactly the first `MAX_FACTS` of the descending
`(significance, timestamp)` sort of the flattened store (a permutation of the
store's pairs, every kept pair dominating every discarded one); with
`MAX_FACTS = 2` and entries of significances 90, 50 and 10, exactly the 90-
and 50-significance entries survive. -/
theorem claim_C1_prune_topK :
    (∀ (maxFacts : Nat) (st : SpecStore),
        (flattenStore (prune_facts maxFacts st)).length ≤ maxFacts
      ∧ (flattenStore (prune_facts maxFacts st)).Perm
          ((sortDesc (flattenStore st)).take maxFacts)
      ∧ (sortDesc (flattenStore st)).Perm (flattenStore st)
      ∧ ∀ p ∈ (sortDesc (flattenStore st)).take maxFacts,
          ∀ q ∈ (sortDesc (flattenStore st)).drop maxFacts, pruneGe p q)
  ∧ prune_facts 2 [("A", [⟨"a", "t1", 90⟩]), ("B", [⟨"b", "t2", 50⟩]), ("C", [⟨"c", "t3", 10⟩])]
      = [("A", [⟨"a", "t1", 90⟩]), ("B", [⟨"b", "t2", 50⟩])] := by
  constructor
  · intro maxFacts st
    have hperm := flattenStore_regroup_perm ((sortDesc (flattenStore st)).take maxFacts)
    refine ⟨?_, hperm, ?_, ?_⟩
    · rw [prune_facts, hperm.length_eq]
      exact List.length_take_le _ _
    · exact List.perm_insertionSort _ _
    · intro p hp q hq
      have hs : List.Sorted pruneGe (sortDesc (flattenStore st)) :=
        List.sorted_insertionSort _ _
      rw [← List.take_append_drop maxFacts (sortDesc (flattenStore st))] at hs
      exact (List.pairwise_append.mp hs).2.2 p hp q hq
  · decide

/-- Witness for C1 at a concrete store. -/
theorem claim_C1_witness :
    (flattenStore (prune_facts 2
        [("A", [⟨"a", "t1", 90⟩]), ("B", [⟨"b", "t2", 50⟩]), ("C", [⟨"c", "t3", 10⟩])])).length ≤ 2 :=
  (claim_C1_prune_topK.1 2 _).1

/-- C2 (amended): for every oracle response text that does not parse as JSON,
the gateway returns the existing store unchanged, without raising. -/
theorem claim_C2_gateway_noop (response : String) (existing : PyDict) (now : String)
    (h : parseJson response = none) :
    extract_facts_gateway response existing now = .ok existing := by
  simp [extract_facts_gateway, h]

/-- Witness for C2: the response body `"not json"` fails to parse and the
input store comes back unchanged. -/
theorem claim_C2_witness :
    parseJson "not json" = none ∧
      extract_facts_gateway "not json" (.cons "X" (.vnum 1) .nil) "T"
        = .ok (.cons "X" (.vnum 1) .nil) :=
  ⟨rfl, claim_C2_gateway_noop "not json" (.cons "X" (.vnum 1) .nil) "T" rfl⟩

/-- Counterexample to C2 as stated: the response body `"[]"` parses to a JSON
array — a value that is not an object — yet the gateway does not return the
store unchanged; `merge_facts(existing, new).items()` raises an uncaught
`AttributeError`. -/
theorem claim_C2_counterexample :
    extract_facts_gateway "[]" (.cons "X" (.vnum 1) .nil) "T" = .error .attributeError ∧
    extract_facts_gateway "[]" (.cons "X" (.vnum 1) .nil) "T" ≠ .ok (.cons "X" (.vnum 1) .nil) := by
  refine ⟨rfl, ?_⟩
  intro h
  rw [show extract_facts_gateway "[]" (.cons "X" (.vnum 1) .nil) "T"
      = .error .attributeError from rfl] at h
  exact Except.noConfusion h

/-!
Frame lemmas for the Merger: merging a candidate under category `k` can touch
only `k` itself and, when `k` is `Preference` or `Dislike`, the opposite
member of the pair.
-/

@[simp] theorem exceptBindOk {α β : Type} (a : α) (f : α → Except PyErr β) :
    (Except.ok a : Except PyErr α) >>= f = f a := rfl

@[simp] theorem exceptBindErr {α β : Type} (e : PyErr) (f : α → Except PyErr β) :
    (Except.error e : Except PyErr α) >>= f = (Except.error e : Except PyErr β) := rfl

theorem removeOpposite_frame (ex : PyDict) (opp : String) (fv : PyVal)
    (res : PyDict) (k2 : String) (hne : k2 ≠ opp)
    (h : removeOpposite ex opp fv = .ok res) :
    lookupKv res k2 = lookupKv ex k2 := by
  unfold removeOpposite at h
  split at h
  · cases h
    rfl
  · cases hf : filterNeVal _ fv with
    | error e =>
      rw [hf] at h
      simp at h
    | ok kept =>
      rw [hf] at h
      simp only [exceptBindOk] at h
      split at h
      · cases h
        exact lookupKv_eraseKv_ne ex opp k2 hne
      · cases h
        exact lookupKv_insertKv_ne ex opp k2 _ hne
  · cases hg : getItem _ "value" with
    | error e =>
      rw [hg] at h
      simp at h
    | ok dv =>
      rw [hg] at h
      simp only [exceptBindOk] at h
      split at h
      · cases h
        exact lookupKv_eraseKv_ne ex opp k2 hne
      · cases h
        rfl

theorem appendIfNew_frame (ex : PyDict) (k : String) (lst : PyList)
    (fv newFact : PyVal) (res : PyDict) (k2 : String) (hne : k2 ≠ k)
    (h : appendIfNew ex k lst fv newFact = .ok res) :
    lookupKv res k2 = lookupKv ex k2 := by
  unfold appendIfNew at h
  cases hb : allValuesNe lst fv with
  | error e =>
    rw [hb] at h
    simp at h
  | ok b =>
    rw [hb] at h
    simp only [exceptBindOk] at h
    split at h <;>
      (cases h; exact lookupKv_insertKv_ne ex k k2 _ hne)

theorem mergeTail_frame (ex2 : PyDict) (k : String) (fv newFact : PyVal)
    (res : PyDict) (k2 : String) (hne : k2 ≠ k)
    (h : mergeTail ex2 k fv newFact = .ok res) :
    lookupKv res k2 = lookupKv ex2 k2 := by
  unfold mergeTail at h
  split at h
  · exact appendIfNew_frame ex2 k _ _ _ res k2 hne h
  · exact appendIfNew_frame ex2 k _ _ _ res k2 hne h
  · split at h
    · exact appendIfNew_frame ex2 k _ _ _ res k2 hne h
    · simp at h
  · simp at h
  · cases h
    exact lookupKv_insertKv_ne ex2 k k2 _ hne

theorem mergeScalarStep_frame (now : String) (ex : PyDict) (k : String)
    (v : PyVal) (res : PyDict) (k2 : String) (h1 : k2 ≠ k)
    (h2 : ¬(k = "Preference" ∧ k2 = "Dislike"))
    (h3 : ¬(k = "Dislike" ∧ k2 = "Preference"))
    (h : mergeScalarStep now ex k v = .ok res) :
    lookupKv res k2 = lookupKv ex k2 := by
  unfold mergeScalarStep at h
  dsimp only at h
  split at h
  · cases h
    exact lookupKv_insertKv_ne ex k k2 _ h1
  · by_cases hp : k = "Preference"
    · rw [if_pos hp] at h
      split at h
      · simp at h
      · rename_i ex2 heq
        rw [mergeTail_frame ex2 k _ _ res k2 h1 h]
        exact removeOpposite_frame ex "Dislike" _ ex2 k2 (fun hd => h2 ⟨hp, hd⟩) heq
    · rw [if_neg hp] at h
      by_cases hdis : k = "Dislike"
      · rw [if_pos hdis] at h
        split at h
        · simp at h
        · rename_i ex2 heq
          rw [mergeTail_frame ex2 k _ _ res k2 h1 h]
          exact removeOpposite_frame ex "Preference" _ ex2 k2 (fun hd => h3 ⟨hdis, hd⟩) heq
      · rw [if_neg hdis] at h
        split at h
        · simp at h
        · rename_i ex2 heq
          cases heq
          exact mergeTail_frame _ k _ _ res k2 h1 h

mutual
theorem mergeOne_frame : ∀ (now : String) (ex : PyDict) (k : String) (v : PyVal)
    (res : PyDict) (k2 : String), mergeOne now ex k v = .ok res → k2 ≠ k →
    ¬(k = "Preference" ∧ k2 = "Dislike") → ¬(k = "Dislike" ∧ k2 = "Preference") →
    lookupKv res k2 = lookupKv ex k2
  | now, ex, k, .vlist xs, res, k2, h, h1, h2, h3 =>
    mergeList_frame now ex k xs res k2 h h1 h2 h3
  | now, ex, k, .vstr _, res, k2, h, h1, h2, h3 =>
    mergeScalarStep_frame now ex k _ res k2 h1 h2 h3 h
  | now, ex, k, .vnum _, res, k2, h, h1, h2, h3 =>
    mergeScalarStep_frame now ex k _ res k2 h1 h2 h3 h
  | now, ex, k, .vfloat _, res, k2, h, h1, h2, h3 =>
    mergeScalarStep_frame now ex k _ res k2 h1 h2 h3 h
  | now, ex, k, .vbool _, res, k2, h, h1, h2, h3 =>
    mergeScalarStep_frame now ex k _ res k2 h1 h2 h3 h
  | now, ex, k, .vnull, res, k2, h, h1, h2, h3 =>
    mergeScalarStep_frame now ex k _ res k2 h1 h2 h3 h
  | now, ex, k, .vdict _, res, k2, h, h1, h2, h3 =>
    mergeScalarStep_frame now ex k _ res k2 h1 h2 h3 h

theorem mergeList_frame : ∀ (now : String) (ex : PyDict) (k : String) (xs : PyList)
    (res : PyDict) (k2 : String), mergeList now ex k xs = .ok res → k2 ≠ k →
    ¬(k = "Preference" ∧ k2 = "Dislike") → ¬(k = "Dislike" ∧ k2 = "Preference") →
    lookupKv res k2 = lookupKv ex k2
  | now, ex, k, .nil, res, k2, h, h1, h2, h3 => by
    cases h
    rfl
  | now, ex, k, .cons x xs, res, k2, h, h1, h2, h3 => by
    unfold mergeList at h
    cases hm : mergeOne now ex k x with
    | error e =>
      rw [hm] at h
      simp at h
    | ok mid =>
      rw [hm] at h
      simp only [exceptBindOk] at h
      have ha := mergeOne_frame now ex k x mid k2 hm h1 h2 h3
      have hb := mergeList_frame now mid k xs res k2 h h1 h2 h3
      rw [hb, ha]
end

/-- Whether every key of a candidate dict equals the one category `c`. -/
def dictKeysIn : PyDict → String → Bool
  | .nil, _ => true
  | .cons k _ rest, c => (k == c) && dictKeysIn rest c

theorem merge_facts_frame : ∀ (nw : PyDict) (now : String) (ex : PyDict)
    (res : PyDict) (c k2 : String), dictKeysIn nw c = true →
    merge_facts now ex nw = .ok res → k2 ≠ c →
    ¬(c = "Preference" ∧ k2 = "Dislike") → ¬(c = "Dislike" ∧ k2 = "Preference") →
    lookupKv res k2 = lookupKv ex k2
  | .nil, now, ex, res, c, k2, hkeys, h, h1, h2, h3 => by
    cases h
    rfl
  | .cons k v rest, now, ex, res, c, k2, hkeys, h, h1, h2, h3 => by
    simp only [dictKeysIn, Bool.and_eq_true, beq_iff_eq] at hkeys
    obtain ⟨hkc, hrest⟩ := hkeys
    subst hkc
    unfold merge_facts at h
    cases hm : mergeOne now ex k v with
    | error e =>
      rw [hm] at h
      simp at h
    | ok mid =>
      rw [hm] at h
      simp only [exceptBindOk] at h
      have ha := mergeOne_frame now ex k v mid k2 hm h1 h2 h3
      have hb := merge_facts_frame rest now mid res k k2 hrest h h1 h2 h3
      rw [hb, ha]

/-- C3 (amended): for every existing store and candidate fact set whose
categories are a subset of one category C, a successful merge leaves the
binding of every category other than C — and, when C is `Preference` or
`Dislike`, other than its contradictory opposite — exactly as it was. -/
theorem claim_C3_merge_frame (now : String) (ex nw res : PyDict) (c k2 : String)
    (hkeys : dictKeysIn nw c = true) (h : merge_facts now ex nw = .ok res)
    (h1 : k2 ≠ c) (h2 : ¬(c = "Preference" ∧ k2 = "Dislike"))
    (h3 : ¬(c = "Dislike" ∧ k2 = "Preference")) :
    lookupKv res k2 = lookupKv ex k2 :=
  merge_facts_frame nw now ex res c k2 hkeys h h1 h2 h3

/-- Witness for C3: a merge into `Hobby` leaves the `Name` binding as it was. -/
theorem claim_C3_witness :
    dictKeysIn (.cons "Hobby" (.vstr "Skiing") .nil) "Hobby" = true ∧
    merge_facts "T"
        (.cons "Name" (mkEntry (.vstr "Al") (.vstr "t0")) .nil)
        (.cons "Hobby" (.vstr "Skiing") .nil)
      = .ok (.cons "Name" (mkEntry (.vstr "Al") (.vstr "t0"))
          (.cons "Hobby" (mkEntry (.vstr "Skiing") (.vstr "T")) .nil)) ∧
    lookupKv (.cons "Name" (mkEntry (.vstr "Al") (.vstr "t0"))
        (.cons "Hobby" (mkEntry (.vstr "Skiing") (.vstr "T")) .nil)) "Name"
      = lookupKv (.cons "Name" (mkEntry (.vstr "Al") (.vstr "t0")) .nil) "Name" :=
  ⟨rfl, rfl,
    claim_C3_merge_frame "T"
      (.cons "Name" (mkEntry (.vstr "Al") (.vstr "t0")) .nil)
      (.cons "Hobby" (.vstr "Skiing") .nil)
      (.cons "Name" (mkEntry (.vstr "Al") (.vstr "t0"))
        (.cons "Hobby" (mkEntry (.vstr "Skiing") (.vstr "T")) .nil))
      "Hobby" "Name" rfl rfl (by decide) (by decide) (by decide)⟩

/-- Counterexample to C3 as stated: merging a candidate touching only
`Preference` removes the equal-valued entry under `Dislike`, so a category
other than C changes. -/
theorem claim_C3_counterexample :
    dictKeysIn (.cons "Preference" (.vstr "Coffee") .nil) "Preference" = true ∧
    merge_facts "T" (.cons "Dislike" (mkEntry (.vstr "Coffee") (.vstr "t0")) .nil)
        (.cons "Preference" (.vstr "Coffee") .nil)
      = .ok (.cons "Preference" (mkEntry (.vstr "Coffee") (.vstr "T")) .nil) ∧
    lookupKv (.cons "Preference" (mkEntry (.vstr "Coffee") (.vstr "T")) .nil) "Dislike"
      ≠ lookupKv (.cons "Dislike" (mkEntry (.vstr "Coffee") (.vstr "t0")) .nil) "Dislike" :=
  ⟨rfl, rfl, by decide⟩

/-- Helper: on a non-list value, merging one pair is the scalar step. -/
theorem mergeOne_nonlist (now : String) (ex : PyDict) (k : String) :
    ∀ v : PyVal, (∀ xs, v ≠ .vlist xs) →
      mergeOne now ex k v = mergeScalarStep now ex k v
  | .vstr _, _ => rfl
  | .vnum _, _ => rfl
  | .vfloat _, _ => rfl
  | .vbool _, _ => rfl
  | .vnull, _ => rfl
  | .vdict _, _ => rfl
  | .vlist xs, hv => absurd rfl (hv xs)

/-- Helper: merging a one-pair candidate is one `mergeOne` step. -/
theorem merge_facts_single (now : String) (ex : PyDict) (k : String) (v : PyVal)
    (res : PyDict) (h : mergeOne now ex k v = .ok res) :
    merge_facts now ex (.cons k v .nil) = .ok res := by
  unfold merge_facts
  rw [h]
  simp only [exceptBindOk]
  rfl

/-- C4: the failing input for the claimed scalar-value invariant — the
Normalizer accepts `{"value": ["a"], "timestamp": "t"}` unchanged, leaving a
sequence (not a scalar) in the entry's value position, because the source
recurses only into dict-shaped values. -/
theorem claim_C4_value_not_scalar :
    normalize_facts "T0"
        (.cons "X" (mkEntry (.vlist (.cons (.vstr "a") .nil)) (.vstr "t")) .nil)
      = .ok (.cons "X" (mkEntry (.vlist (.cons (.vstr "a") .nil)) (.vstr "t")) .nil) := rfl

/-- C6: merging a non-list candidate under a singleton category
unconditionally overwrites, leaving exactly one entry — the fresh canonical
entry carrying the candidate's scalar value. -/
theorem claim_C6_singleton_overwrite (now : String) (ex : PyDict) (k : String)
    (v : PyVal) (hk : k ∈ SINGLETON_CATEGORIES) (hv : ∀ xs, v ≠ .vlist xs) :
    merge_facts now ex (.cons k v .nil)
      = .ok (insertKv ex k (mkEntry (factValueOf v) (.vstr now)))
    ∧ lookupKv (insertKv ex k (mkEntry (factValueOf v) (.vstr now))) k
      = some (mkEntry (factValueOf v) (.vstr now)) := by
  constructor
  · refine merge_facts_single now ex k v _ ?_
    rw [mergeOne_nonlist now ex k v hv]
    unfold mergeScalarStep
    rw [if_pos hk]
  · exact lookupKv_insertKv_self ex k _

/-- Witness for C6: merging `{"Name": "Bob"}` into a store with
`Name = Alice` yields exactly one `Name` entry with value `"Bob"`. -/
theorem claim_C6_witness :
    "Name" ∈ SINGLETON_CATEGORIES ∧
    merge_facts "T" (.cons "Name" (mkEntry (.vstr "Alice") (.vstr "t0")) .nil)
        (.cons "Name" (.vstr "Bob") .nil)
      = .ok (insertKv (.cons "Name" (mkEntry (.vstr "Alice") (.vstr "t0")) .nil)
          "Name" (mkEntry (factValueOf (.vstr "Bob")) (.vstr "T"))) ∧
    lookupKv (insertKv (.cons "Name" (mkEntry (.vstr "Alice") (.vstr "t0")) .nil)
        "Name" (mkEntry (factValueOf (.vstr "Bob")) (.vstr "T"))) "Name"
      = some (mkEntry (.vstr "Bob") (.vstr "T")) :=
  ⟨by decide,
    (claim_C6_singleton_overwrite "T"
      (.cons "Name" (mkEntry (.vstr "Alice") (.vstr "t0")) .nil)
      "Name" (.vstr "Bob") (by decide) (fun _ h => PyVal.noConfusion h)).1,
    (claim_C6_singleton_overwrite "T"
      (.cons "Name" (mkEntry (.vstr "Alice") (.vstr "t0")) .nil)
      "Name" (.vstr "Bob") (by decide) (fun _ h => PyVal.noConfusion h)).2⟩

/-!
Statement vocabulary for the contradiction and accumulation claims, and the
characterization of `removeOpposite` and the accumulate block.
-/

/-- The entries stored under a category, as a Lean list: an absent key gives
`[]`, a stored list gives its elements, anything else is a single holding. -/
def entriesOf (st : PyDict) (k : String) : List PyVal :=
  match lookupKv st k with
  | none => []
  | some (.vlist xs) => pyToList xs
  | some v => [v]

/-- Whether a stored entry is a dict whose `"value"` equals `fv`. -/
def entryHasVal (e fv : PyVal) : Bool :=
  match e with
  | .vdict kvs => lookupKv kvs "value" == some fv
  | _ => false

/-- How many entries under category `k` carry value `fv`. -/
def countVal (st : PyDict) (k : String) (fv : PyVal) : Nat :=
  (entriesOf st k).countP (fun e => entryHasVal e fv)

theorem entriesOf_ext {a b : PyDict} {k : String}
    (h : lookupKv a k = lookupKv b k) : entriesOf a k = entriesOf b k := by
  unfold entriesOf
  rw [h]

theorem countVal_ext {a b : PyDict} {k : String} {fv : PyVal}
    (h : lookupKv a k = lookupKv b k) : countVal a k fv = countVal b k fv := by
  unfold countVal
  rw [entriesOf_ext h]

theorem getItem_ok {e : PyVal} {key : String} {x : PyVal}
    (h : getItem e key = .ok x) :
    ∃ kvs, e = .vdict kvs ∧ lookupKv kvs key = some x := by
  cases e with
  | vdict kvs =>
    refine ⟨kvs, rfl, ?_⟩
    simp only [getItem] at h
    split at h
    · rename_i y hl
      cases h
      exact hl
    · cases h
  | vstr s => simp [getItem] at h
  | vnum n => simp [getItem] at h
  | vfloat r => simp [getItem] at h
  | vbool b => simp [getItem] at h
  | vnull => simp [getItem] at h
  | vlist xs => simp [getItem] at h

theorem entryHasVal_of_getItem {e fv dv : PyVal}
    (h : getItem e "value" = .ok dv) :
    entryHasVal e fv = decide (dv = fv) := by
  obtain ⟨kvs, rfl, hl⟩ := getItem_ok h
  simp only [entryHasVal, hl]
  by_cases hdv : dv = fv
  · subst hdv
    simp
  · simp [hdv]

theorem entryHasVal_mkEntry (fv ts : PyVal) :
    entryHasVal (mkEntry fv ts) fv = true := by
  simp [entryHasVal, mkEntry, lookupKv]

theorem pyToList_pyAppend : ∀ (a b : PyList),
    pyToList (pyAppend a b) = pyToList a ++ pyToList b
  | .nil, b => by simp [pyAppend, pyToList]
  | .cons x xs, b => by simp [pyAppend, pyToList, pyToList_pyAppend xs b]

theorem pyToList_eq_nil : ∀ {L : PyList}, pyToList L = [] → L = .nil
  | .nil, _ => rfl
  | .cons x xs, h => by simp [pyToList] at h

theorem filterNeVal_spec : ∀ (ds : PyList) (fv : PyVal) (kept : PyList),
    filterNeVal ds fv = .ok kept →
    pyToList kept = (pyToList ds).filter (fun e => !(entryHasVal e fv))
  | .nil, fv, kept, h => by
    cases h
    rfl
  | .cons d rest, fv, kept, h => by
    unfold filterNeVal at h
    cases hg : getItem d "value" with
    | error e =>
      rw [hg] at h
      simp at h
    | ok dv =>
      rw [hg] at h
      simp only [exceptBindOk] at h
      cases hf : filterNeVal rest fv with
      | error e =>
        rw [hf] at h
        simp at h
      | ok tail =>
        rw [hf] at h
        simp only [exceptBindOk] at h
        have hhv := @entryHasVal_of_getItem _ fv _ hg
        by_cases hdv : dv = fv
        · rw [if_pos hdv] at h
          cases h
          simpa [pyToList, List.filter_cons, hhv, hdv] using
            filterNeVal_spec rest fv kept hf
        · rw [if_neg hdv] at h
          cases h
          simp [pyToList, List.filter_cons, hhv, hdv,
            filterNeVal_spec rest fv tail hf]

theorem removeOpposite_spec (ex : PyDict) (opp : String) (fv : PyVal)
    (res : PyDict) (h : removeOpposite ex opp fv = .ok res) :
    entriesOf res opp = (entriesOf ex opp).filter (fun e => !(entryHasVal e fv))
    ∧ ((entriesOf ex opp).filter (fun e => !(entryHasVal e fv)) = []
        → lookupKv res opp = none) := by
  unfold removeOpposite at h
  split at h
  · rename_i heq
    cases h
    constructor
    · simp [entriesOf, heq]
    · intro _
      exact heq
  · rename_i ds heq
    cases hf : filterNeVal ds fv with
    | error e =>
      rw [hf] at h
      simp at h
    | ok kept =>
      rw [hf] at h
      simp only [exceptBindOk] at h
      have hspec := filterNeVal_spec ds fv kept hf
      split at h
      · rename_i hnil
        subst hnil
        cases h
        constructor
        · simp [entriesOf, lookupKv_eraseKv_self, entriesOf_ext, heq, ← hspec,
            pyToList]
        · intro _
          exact lookupKv_eraseKv_self ex opp
      · rename_i hnil
        cases h
        constructor
        · have : entriesOf (insertKv ex opp (.vlist kept)) opp = pyToList kept := by
            simp [entriesOf, lookupKv_insertKv_self]
          rw [this, hspec]
          simp [entriesOf, heq]
        · intro hcontra
          rw [entriesOf, heq] at hcontra
          rw [← hspec] at hcontra
          exact absurd (pyToList_eq_nil hcontra) hnil
  · rename_i d hnotlist heq
    cases hg : getItem d "value" with
    | error e =>
      rw [hg] at h
      simp at h
    | ok dv =>
      rw [hg] at h
      simp only [exceptBindOk] at h
      obtain ⟨kvs, rfl, hl⟩ := getItem_ok hg
      have hhv := @entryHasVal_of_getItem _ fv _ hg
      have hex : entriesOf ex opp = [.vdict kvs] := by
        simp [entriesOf, heq]
      by_cases hdv : dv = fv
      · rw [if_pos hdv] at h
        cases h
        constructor
        · have hers : entriesOf (eraseKv ex opp) opp = [] := by
            simp [entriesOf, lookupKv_eraseKv_self]
          rw [hers, hex]
          simp [List.filter_cons, hhv, hdv]
        · intro _
          exact lookupKv_eraseKv_self ex opp
      · rw [if_neg hdv] at h
        cases h
        constructor
        · simp [hex, List.filter_cons, hhv, hdv]
        · intro hcontra
          rw [hex] at hcontra
          simp [List.filter_cons, hhv, hdv] at hcontra

theorem allValuesNe_false : ∀ (lst : PyList) (fv : PyVal),
    allValuesNe lst fv = .ok false →
    0 < (pyToList lst).countP (fun e => entryHasVal e fv)
  | .nil, fv, h => by simp [allValuesNe] at h
  | .cons e rest, fv, h => by
    unfold allValuesNe at h
    cases hg : getItem e "value" with
    | error er =>
      rw [hg] at h
      simp at h
    | ok ev =>
      rw [hg] at h
      simp only [exceptBindOk] at h
      have hhv := @entryHasVal_of_getItem _ fv _ hg
      by_cases hev : ev = fv
      · simp [pyToList, List.countP_cons, hhv, hev]
      · rw [if_neg hev] at h
        have hrec := allValuesNe_false rest fv h
        simp only [pyToList, List.countP_cons, hhv, hev]
        omega

theorem allValuesNe_true : ∀ (lst : PyList) (fv : PyVal),
    allValuesNe lst fv = .ok true →
    (pyToList lst).countP (fun e => entryHasVal e fv) = 0
  | .nil, _, _ => by simp [pyToList]
  | .cons e rest, fv, h => by
    unfold allValuesNe at h
    cases hg : getItem e "value" with
    | error er =>
      rw [hg] at h
      simp at h
    | ok ev =>
      rw [hg] at h
      simp only [exceptBindOk] at h
      have hhv := @entryHasVal_of_getItem _ fv _ hg
      by_cases hev : ev = fv
      · rw [if_pos hev] at h
        simp at h
      · rw [if_neg hev] at h
        have hrec := allValuesNe_true rest fv h
        simp [pyToList, List.countP_cons, hhv, hev, hrec]

/-- Appending the fresh equal-valued entry after a clean scan makes the scan
find it. -/
theorem allValuesNe_append_new : ∀ (lst : PyList) (fv ts : PyVal),
    allValuesNe lst fv = .ok true →
    allValuesNe (pyAppend lst (.cons (mkEntry fv ts) .nil)) fv = .ok false
  | .nil, fv, ts, _ => by
    simp [pyAppend, allValuesNe, getItem, mkEntry, lookupKv]
  | .cons e rest, fv, ts, h => by
    unfold allValuesNe at h
    unfold pyAppend allValuesNe
    cases hg : getItem e "value" with
    | error er =>
      rw [hg] at h
      simp at h
    | ok ev =>
      rw [hg] at h
      simp only [exceptBindOk] at h
      by_cases hev : ev = fv
      · rw [if_pos hev] at h
        simp at h
      · rw [if_neg hev] at h
        simp only [exceptBindOk, if_neg hev]
        exact allValuesNe_append_new rest fv ts h

theorem appendIfNew_cases (ex2 : PyDict) (k : String) (lst : PyList)
    (fv newFact : PyVal) (res : PyDict)
    (h : appendIfNew ex2 k lst fv newFact = .ok res) :
    (allValuesNe lst fv = .ok true
      ∧ res = insertKv ex2 k (.vlist (pyAppend lst (.cons newFact .nil))))
  ∨ (allValuesNe lst fv = .ok false ∧ res = insertKv ex2 k (.vlist lst)) := by
  unfold appendIfNew at h
  cases hb : allValuesNe lst fv with
  | error e =>
    rw [hb] at h
    simp at h
  | ok b =>
    rw [hb] at h
    simp only [exceptBindOk] at h
    cases b with
    | true =>
      rw [if_pos rfl] at h
      cases h
      exact Or.inl ⟨rfl, rfl⟩
    | false =>
      simp only [Bool.false_eq_true, if_false] at h
      cases h
      exact Or.inr ⟨rfl, rfl⟩

theorem countVal_insert_list (ex2 : PyDict) (k : String) (fv : PyVal) (L : PyList) :
    countVal (insertKv ex2 k (.vlist L)) k fv
      = (pyToList L).countP (fun e => entryHasVal e fv) := by
  simp [countVal, entriesOf, lookupKv_insertKv_self]

theorem mergeTail_count (ex2 : PyDict) (k : String) (fv : PyVal) (now : String)
    (res : PyDict) (h : mergeTail ex2 k fv (mkEntry fv (.vstr now)) = .ok res) :
    0 < countVal res k fv := by
  unfold mergeTail at h
  split at h
  · rcases appendIfNew_cases _ _ _ _ _ _ h with ⟨hne, rfl⟩ | ⟨hne, rfl⟩
    · rw [countVal_insert_list]
      simp [pyToList_pyAppend, List.countP_append, pyToList, List.countP_cons,
        entryHasVal_mkEntry]
    · rw [countVal_insert_list]
      exact allValuesNe_false _ _ hne
  · rcases appendIfNew_cases _ _ _ _ _ _ h with ⟨hne, rfl⟩ | ⟨hne, rfl⟩
    · rw [countVal_insert_list]
      simp [pyToList_pyAppend, List.countP_append, pyToList, List.countP_cons,
        entryHasVal_mkEntry]
    · rw [countVal_insert_list]
      exact allValuesNe_false _ _ hne
  · split at h
    · rcases appendIfNew_cases _ _ _ _ _ _ h with ⟨hne, rfl⟩ | ⟨hne, rfl⟩
      · rw [countVal_insert_list]
        simp [pyToList_pyAppend, List.countP_append, pyToList, List.countP_cons,
          entryHasVal_mkEntry]
      · rw [countVal_insert_list]
        exact allValuesNe_false _ _ hne
    · simp at h
  · simp at h
  · cases h
    simp [countVal, entriesOf, lookupKv_insertKv_self, mkEntry, pyToList,
      List.countP_cons, entryHasVal, lookupKv]

/-- Helper: a successful one-pair merge is a successful `mergeOne`. -/
theorem merge_facts_single_inv (now : String) (ex : PyDict) (k : String)
    (v : PyVal) (res : PyDict)
    (h : merge_facts now ex (.cons k v .nil) = .ok res) :
    mergeOne now ex k v = .ok res := by
  unfold merge_facts at h
  cases hm : mergeOne now ex k v with
  | error e =>
    rw [hm] at h
    simp at h
  | ok mid =>
    rw [hm] at h
    simp only [exceptBindOk] at h
    unfold merge_facts at h
    cases h
    rfl

/-- C7: merging a non-list value under one member of the contradictory pair
(Preference, Dislike) leaves under the opposite category exactly the entries
whose value differs from the new scalar (the key disappearing when none
remain), and records at least one entry with the new scalar under the
asserted category. -/
theorem claim_C7_contradiction (now : String) (ex res : PyDict) (k opp : String)
    (v : PyVal)
    (hpair : (k = "Preference" ∧ opp = "Dislike") ∨ (k = "Dislike" ∧ opp = "Preference"))
    (hv : ∀ xs, v ≠ .vlist xs)
    (h : merge_facts now ex (.cons k v .nil) = .ok res) :
    entriesOf res opp
        = (entriesOf ex opp).filter (fun e => !(entryHasVal e (factValueOf v)))
    ∧ ((entriesOf ex opp).filter (fun e => !(entryHasVal e (factValueOf v))) = []
        → lookupKv res opp = none)
    ∧ 0 < countVal res k (factValueOf v) := by
  have hone := merge_facts_single_inv now ex k v res h
  rw [mergeOne_nonlist now ex k v hv] at hone
  unfold mergeScalarStep at hone
  dsimp only at hone
  rcases hpair with ⟨hk, hopp⟩ | ⟨hk, hopp⟩
  · subst hk
    subst hopp
    rw [if_neg (by decide : ¬("Preference" ∈ SINGLETON_CATEGORIES))] at hone
    rw [if_pos rfl] at hone
    split at hone
    · simp at hone
    · rename_i ex2 heq
      obtain ⟨hA, hB⟩ := removeOpposite_spec ex "Dislike" (factValueOf v) ex2 heq
      have hframe := mergeTail_frame ex2 "Preference" (factValueOf v)
        (mkEntry (factValueOf v) (.vstr now)) res "Dislike" (by decide) hone
      refine ⟨?_, ?_, ?_⟩
      · rw [entriesOf_ext hframe, hA]
      · intro hnil
        rw [hframe]
        exact hB hnil
      · exact mergeTail_count ex2 "Preference" (factValueOf v) now res hone
  · subst hk
    subst hopp
    rw [if_neg (by decide : ¬("Dislike" ∈ SINGLETON_CATEGORIES))] at hone
    rw [if_neg (by decide : ¬("Dislike" = "Preference"))] at hone
    rw [if_pos rfl] at hone
    split at hone
    · simp at hone
    · rename_i ex2 heq
      obtain ⟨hA, hB⟩ := removeOpposite_spec ex "Preference" (factValueOf v) ex2 heq
      have hframe := mergeTail_frame ex2 "Dislike" (factValueOf v)
        (mkEntry (factValueOf v) (.vstr now)) res "Preference" (by decide) hone
      refine ⟨?_, ?_, ?_⟩
      · rw [entriesOf_ext hframe, hA]
      · intro hnil
        rw [hframe]
        exact hB hnil
      · exact mergeTail_count ex2 "Dislike" (factValueOf v) now res hone

/-- Witness for C7: merging `{"Preference": "Coffee"}` into a store holding
`Dislike = Coffee` removes the `Dislike` entry (the key disappears) and
records `Coffee` under `Preference`. -/
theorem claim_C7_witness :
    merge_facts "T" (.cons "Dislike" (mkEntry (.vstr "Coffee") (.vstr "t0")) .nil)
        (.cons "Preference" (.vstr "Coffee") .nil)
      = .ok (.cons "Preference" (mkEntry (.vstr "Coffee") (.vstr "T")) .nil)
  ∧ (entriesOf (.cons "Preference" (mkEntry (.vstr "Coffee") (.vstr "T")) .nil) "Dislike"
      = (entriesOf (.cons "Dislike" (mkEntry (.vstr "Coffee") (.vstr "t0")) .nil)
            "Dislike").filter
          (fun e => !(entryHasVal e (factValueOf (.vstr "Coffee"))))
    ∧ ((entriesOf (.cons "Dislike" (mkEntry (.vstr "Coffee") (.vstr "t0")) .nil)
            "Dislike").filter
          (fun e => !(entryHasVal e (factValueOf (.vstr "Coffee")))) = []
        → lookupKv (.cons "Preference" (mkEntry (.vstr "Coffee") (.vstr "T")) .nil)
            "Dislike" = none)
    ∧ 0 < countVal (.cons "Preference" (mkEntry (.vstr "Coffee") (.vstr "T")) .nil)
        "Preference" (factValueOf (.vstr "Coffee"))) :=
  ⟨rfl,
    claim_C7_contradiction "T"
      (.cons "Dislike" (mkEntry (.vstr "Coffee") (.vstr "t0")) .nil)
      (.cons "Preference" (mkEntry (.vstr "Coffee") (.vstr "T")) .nil)
      "Preference" "Dislike" (.vstr "Coffee")
      (Or.inl ⟨rfl, rfl⟩) (fun _ hx => PyVal.noConfusion hx) rfl⟩

/-!
Machinery for the double-merge (no-duplicate) claim: category holdings
without nested lists, and the exact entry count after the accumulate block.
-/

/-- A stored list with no nested list elements (the shape every store written
by the engine itself has). -/
def flatList : PyList → Bool
  | .nil => true
  | .cons (.vlist _) _ => false
  | .cons _ rest => flatList rest

/-- A category holding whose stored list, if any, is flat. -/
def flatCat : Option PyVal → Bool
  | some (.vlist xs) => flatList xs
  | _ => true

theorem flattenOnce_flat : ∀ (xs : PyList), flatList xs = true → flattenOnce xs = xs
  | .nil, _ => rfl
  | .cons x rest, h => by
    cases x with
    | vlist ys => simp [flatList] at h
    | vstr s => simp only [flattenOnce, flatList] at h ⊢; rw [flattenOnce_flat rest h]
    | vnum n => simp only [flattenOnce, flatList] at h ⊢; rw [flattenOnce_flat rest h]
    | vfloat r => simp only [flattenOnce, flatList] at h ⊢; rw [flattenOnce_flat rest h]
    | vbool b => simp only [flattenOnce, flatList] at h ⊢; rw [flattenOnce_flat rest h]
    | vnull => simp only [flattenOnce, flatList] at h ⊢; rw [flattenOnce_flat rest h]
    | vdict kvs => simp only [flattenOnce, flatList] at h ⊢; rw [flattenOnce_flat rest h]

theorem flatList_append_entry : ∀ (xs : PyList) (fv ts : PyVal),
    flatList xs = true → flatList (pyAppend xs (.cons (mkEntry fv ts) .nil)) = true
  | .nil, fv, ts, _ => by simp [pyAppend, flatList, mkEntry]
  | .cons x rest, fv, ts, h => by
    cases x with
    | vlist ys => simp [flatList] at h
    | vstr s => simpa [pyAppend, flatList] using flatList_append_entry rest fv ts h
    | vnum n => simpa [pyAppend, flatList] using flatList_append_entry rest fv ts h
    | vfloat r => simpa [pyAppend, flatList] using flatList_append_entry rest fv ts h
    | vbool b => simpa [pyAppend, flatList] using flatList_append_entry rest fv ts h
    | vnull => simpa [pyAppend, flatList] using flatList_append_entry rest fv ts h
    | vdict kvs => simpa [pyAppend, flatList] using flatList_append_entry rest fv ts h

/-- The shape of a category after the accumulate block succeeded: a flat list
in which the scan finds an entry equal to the fact value, or (when the
category was absent) the single fresh entry. -/
def postMergeShape (st : PyDict) (k : String) (fv : PyVal) : Prop :=
  (∃ L, lookupKv st k = some (.vlist L) ∧ flatList L = true
     ∧ allValuesNe L fv = .ok false)
  ∨ (∃ kvs, lookupKv st k = some (.vdict kvs) ∧ lookupKv kvs "value" = some fv)

/-- The accumulate block makes the count of equal-valued entries under `k`
exactly `max 1` of what it was, and leaves the category in `postMergeShape`. -/
theorem mergeTail_spec2 (ex2 : PyDict) (k : String) (fv : PyVal) (now : String)
    (res : PyDict) (hflat : flatCat (lookupKv ex2 k) = true)
    (h : mergeTail ex2 k fv (mkEntry fv (.vstr now)) = .ok res) :
    countVal res k fv = max 1 (countVal ex2 k fv) ∧ postMergeShape res k fv := by
  unfold mergeTail at h
  split at h
  · rename_i d heq
    have hcnt2 : countVal ex2 k fv
        = (pyToList (.cons (.vdict d) .nil)).countP (fun e => entryHasVal e fv) := by
      simp [countVal, entriesOf, heq, pyToList]
    rcases appendIfNew_cases _ _ _ _ _ _ h with ⟨hne, rfl⟩ | ⟨hne, rfl⟩
    · constructor
      · rw [countVal_insert_list, hcnt2, pyToList_pyAppend,
          List.countP_append, allValuesNe_true _ _ hne]
        simp [pyToList, List.countP_cons, entryHasVal_mkEntry]
      · refine Or.inl ⟨_, lookupKv_insertKv_self _ _ _, ?_, ?_⟩
        · exact flatList_append_entry _ fv _ (by simp [flatList])
        · exact allValuesNe_append_new _ fv _ hne
    · constructor
      · rw [countVal_insert_list, hcnt2]
        have := allValuesNe_false _ _ hne
        omega
      · exact Or.inl ⟨_, lookupKv_insertKv_self _ _ _, by simp [flatList], hne⟩
  · rename_i xs heq
    have hfl : flatList xs = true := by
      rw [heq] at hflat
      exact hflat
    rw [flattenOnce_flat xs hfl] at h
    have hcnt2 : countVal ex2 k fv
        = (pyToList xs).countP (fun e => entryHasVal e fv) := by
      simp [countVal, entriesOf, heq]
    rcases appendIfNew_cases _ _ _ _ _ _ h with ⟨hne, rfl⟩ | ⟨hne, rfl⟩
    · constructor
      · rw [countVal_insert_list, hcnt2, pyToList_pyAppend,
          List.countP_append, allValuesNe_true _ _ hne]
        simp [pyToList, List.countP_cons, entryHasVal_mkEntry]
      · refine Or.inl ⟨_, lookupKv_insertKv_self _ _ _, ?_, ?_⟩
        · exact flatList_append_entry _ fv _ hfl
        · exact allValuesNe_append_new _ fv _ hne
    · constructor
      · rw [countVal_insert_list, hcnt2]
        have := allValuesNe_false _ _ hne
        omega
      · exact Or.inl ⟨_, lookupKv_insertKv_self _ _ _, hfl, hne⟩
  · rename_i s heq
    split at h
    · rename_i hemp
      have hcnt2 : countVal ex2 k fv = 0 := by
        simp [countVal, entriesOf, heq, entryHasVal, List.countP_cons]
      rcases appendIfNew_cases _ _ _ _ _ _ h with ⟨hne, rfl⟩ | ⟨hne, rfl⟩
      · constructor
        · rw [countVal_insert_list, hcnt2]
          simp [pyAppend, pyToList, List.countP_cons, entryHasVal_mkEntry]
        · refine Or.inl ⟨_, lookupKv_insertKv_self _ _ _, ?_, ?_⟩
          · exact flatList_append_entry .nil fv _ rfl
          · exact allValuesNe_append_new .nil fv _ rfl
      · simp [allValuesNe] at hne
    · simp at h
  · simp at h
  · rename_i heq
    cases h
    constructor
    · have hcnt2 : countVal ex2 k fv = 0 := by
        simp [countVal, entriesOf, heq]
      rw [hcnt2]
      simp [countVal, entriesOf, lookupKv_insertKv_self, mkEntry, pyToList,
        List.countP_cons, entryHasVal, lookupKv]
    · exact Or.inr ⟨_, lookupKv_insertKv_self _ _ _, by simp [mkEntry, lookupKv]⟩

/-- A second accumulate step on a category already in `postMergeShape` keeps
the count of equal-valued entries unchanged. -/
theorem mergeTail_second (ex3 : PyDict) (k : String) (fv : PyVal) (now2 : String)
    (res2 : PyDict) (hprev : postMergeShape ex3 k fv)
    (h : mergeTail ex3 k fv (mkEntry fv (.vstr now2)) = .ok res2) :
    countVal res2 k fv = countVal ex3 k fv := by
  rcases hprev with ⟨L, hlook, hfl, hne⟩ | ⟨kvs, hlook, hlv⟩
  · unfold mergeTail at h
    rw [hlook] at h
    dsimp only at h
    rw [flattenOnce_flat L hfl] at h
    rcases appendIfNew_cases _ _ _ _ _ _ h with ⟨hne2, rfl⟩ | ⟨hne2, rfl⟩
    · rw [hne] at hne2
      cases hne2
    · rw [countVal_insert_list]
      simp [countVal, entriesOf, hlook]
  · unfold mergeTail at h
    rw [hlook] at h
    dsimp only at h
    have hav : allValuesNe (.cons (.vdict kvs) .nil) fv = .ok false := by
      simp [allValuesNe, getItem, hlv]
    rcases appendIfNew_cases _ _ _ _ _ _ h with ⟨hne2, rfl⟩ | ⟨hne2, rfl⟩
    · rw [hav] at hne2
      cases hne2
    · rw [countVal_insert_list]
      simp [countVal, entriesOf, hlook, pyToList, List.countP_cons, entryHasVal, hlv]

/-- Helper: a successful non-singleton, non-list `mergeOne` factors through
the contradiction step (which leaves `k`'s own binding unchanged) and the
accumulate block. -/
theorem mergeOne_inv (now : String) (ex : PyDict) (k : String) (v : PyVal)
    (res : PyDict) (hk : k ∉ SINGLETON_CATEGORIES) (hv : ∀ xs, v ≠ .vlist xs)
    (h : mergeOne now ex k v = .ok res) :
    ∃ ex2, lookupKv ex2 k = lookupKv ex k ∧
      mergeTail ex2 k (factValueOf v) (mkEntry (factValueOf v) (.vstr now)) = .ok res := by
  rw [mergeOne_nonlist now ex k v hv] at h
  unfold mergeScalarStep at h
  dsimp only at h
  rw [if_neg hk] at h
  split at h
  · simp at h
  · rename_i ex2 heq
    refine ⟨ex2, ?_, h⟩
    by_cases hp : k = "Preference"
    · rw [if_pos hp] at heq
      subst hp
      exact removeOpposite_frame ex "Dislike" _ ex2 "Preference" (by decide) heq
    · rw [if_neg hp] at heq
      by_cases hd : k = "Dislike"
      · rw [if_pos hd] at heq
        subst hd
        exact removeOpposite_frame ex "Preference" _ ex2 "Dislike" (by decide) heq
      · rw [if_neg hd] at heq
        cases heq
        rfl

/-- C8 (amended): merging the same non-list candidate twice in succession
under a multi-value category leaves the number of entries carrying its scalar
value at `max 1` of the count the store held before — in particular exactly
one when the store held at most one such entry, e.g. starting from an empty
store.  The stored-list hypothesis `flatCat` excludes nested lists, the only
shape the engine itself never writes. -/
theorem claim_C8_no_duplicate (now1 now2 : String) (ex r1 r2 : PyDict)
    (k : String) (v : PyVal) (hk : k ∉ SINGLETON_CATEGORIES)
    (hv : ∀ xs, v ≠ .vlist xs) (hflat : flatCat (lookupKv ex k) = true)
    (h1 : merge_facts now1 ex (.cons k v .nil) = .ok r1)
    (h2 : merge_facts now2 r1 (.cons k v .nil) = .ok r2) :
    countVal r2 k (factValueOf v) = max 1 (countVal ex k (factValueOf v)) := by
  obtain ⟨ex2, hl2, ht1⟩ :=
    mergeOne_inv now1 ex k v r1 hk hv (merge_facts_single_inv _ _ _ _ _ h1)
  have hflat2 : flatCat (lookupKv ex2 k) = true := by
    rw [hl2]
    exact hflat
  obtain ⟨hcnt1, hshape1⟩ := mergeTail_spec2 ex2 k _ now1 r1 hflat2 ht1
  obtain ⟨ex3, hl3, ht2⟩ :=
    mergeOne_inv now2 r1 k v r2 hk hv (merge_facts_single_inv _ _ _ _ _ h2)
  have hshape3 : postMergeShape ex3 k (factValueOf v) := by
    unfold postMergeShape at hshape1 ⊢
    rw [hl3]
    exact hshape1
  have hcnt2 := mergeTail_second ex3 k _ now2 r2 hshape3 ht2
  rw [hcnt2, countVal_ext hl3, hcnt1, countVal_ext hl2]

/-- Witness for C8: merging `{"Hobby": "Hiking"}` twice into the empty store
yields exactly one `Hobby` entry with value `"Hiking"`. -/
theorem claim_C8_witness :
    merge_facts "T1" .nil (.cons "Hobby" (.vstr "Hiking") .nil)
      = .ok (.cons "Hobby" (mkEntry (.vstr "Hiking") (.vstr "T1")) .nil) ∧
    merge_facts "T2" (.cons "Hobby" (mkEntry (.vstr "Hiking") (.vstr "T1")) .nil)
        (.cons "Hobby" (.vstr "Hiking") .nil)
      = .ok (.cons "Hobby"
          (.vlist (.cons (mkEntry (.vstr "Hiking") (.vstr "T1")) .nil)) .nil) ∧
    countVal (.cons "Hobby"
        (.vlist (.cons (mkEntry (.vstr "Hiking") (.vstr "T1")) .nil)) .nil)
      "Hobby" (factValueOf (.vstr "Hiking")) = max 1 (countVal .nil "Hobby" (factValueOf (.vstr "Hiking"))) :=
  ⟨rfl, rfl,
    claim_C8_no_duplicate "T1" "T2" .nil
      (.cons "Hobby" (mkEntry (.vstr "Hiking") (.vstr "T1")) .nil)
      (.cons "Hobby"
        (.vlist (.cons (mkEntry (.vstr "Hiking") (.vstr "T1")) .nil)) .nil)
      "Hobby" (.vstr "Hiking") (by decide) (fun _ hx => PyVal.noConfusion hx)
      rfl rfl rfl⟩

/-- A store whose `Hobby` category already holds two entries with the same
value, as the data model permits. -/
def c8store : PyDict :=
  .cons "Hobby" (.vlist (.cons (mkEntry (.vstr "Hiking") (.vstr "a"))
    (.cons (mkEntry (.vstr "Hiking") (.vstr "b")) .nil))) .nil

/-- Counterexample to C8 as stated: into a store already holding two equal
`Hobby` entries, merging `{"Hobby": "Hiking"}` twice leaves two entries with
that value, not exactly one. -/
theorem claim_C8_counterexample :
    merge_facts "T1" c8store (.cons "Hobby" (.vstr "Hiking") .nil) = .ok c8store ∧
    merge_facts "T2" c8store (.cons "Hobby" (.vstr "Hiking") .nil) = .ok c8store ∧
    countVal c8store "Hobby" (.vstr "Hiking") = 2 ∧
    countVal c8store "Hobby" (.vstr "Hiking") ≠ 1 :=
  ⟨rfl, rfl, rfl, by decide⟩

/-!
Characterization of the Deduplicator's scan.
-/

/-- The lowercase-trimmed value of a stored entry, for specification
statements (entries reached by a successful scan are dicts with string
values, where this agrees with `entry["value"].strip().lower()`). -/
def entryValLT (e : PyVal) : List Char :=
  match e with
  | .vdict kvs =>
    match lookupKv kvs "value" with
    | some (.vstr s) => pyLowerTrim s
    | _ => []
  | _ => []

theorem entryValLT_of_getItem {e : PyVal} {s : String}
    (h : getItem e "value" = .ok (.vstr s)) : entryValLT e = pyLowerTrim s := by
  obtain ⟨kvs, rfl, hl⟩ := getItem_ok h
  simp [entryValLT, hl]

theorem dedupeList_spec : ∀ (xs : PyList) (seen : List (List Char)) (u : PyList),
    dedupeList xs seen = .ok u →
    (pyToList u).Sublist (pyToList xs)
    ∧ (∀ e ∈ pyToList u, ∀ o ∈ seen, containsEitherWay (entryValLT e) o = false)
    ∧ (pyToList u).Pairwise
        (fun a b => containsEitherWay (entryValLT b) (entryValLT a) = false)
    ∧ (∀ e ∈ pyToList xs, e ∈ pyToList u
        ∨ (∃ o ∈ seen, containsEitherWay (entryValLT e) o = true)
        ∨ (∃ a ∈ pyToList u, containsEitherWay (entryValLT e) (entryValLT a) = true))
  | .nil, seen, u, h => by
    cases h
    simp [pyToList]
  | .cons e rest, seen, u, h => by
    unfold dedupeList at h
    cases hg : getItem e "value" with
    | error er =>
      rw [hg] at h
      simp at h
    | ok ev =>
      rw [hg] at h
      simp only [exceptBindOk] at h
      cases ev with
      | vstr s =>
        dsimp only at h
        have hval : entryValLT e = pyLowerTrim s := entryValLT_of_getItem hg
        by_cases hany : seen.any (fun other => containsEitherWay (pyLowerTrim s) other) = true
        · rw [if_pos hany] at h
          obtain ⟨hsub, hseen, hpair, hcov⟩ := dedupeList_spec rest seen u h
          refine ⟨hsub.cons _, hseen, hpair, ?_⟩
          intro x hx
          simp only [pyToList] at hx
          rcases List.mem_cons.mp hx with hx | hx
          · subst hx
            obtain ⟨o, ho, hro⟩ := List.any_eq_true.mp hany
            exact Or.inr (Or.inl ⟨o, ho, by rw [hval]; exact hro⟩)
          · exact hcov x hx
        · rw [if_neg hany] at h
          cases hdl : dedupeList rest (seen ++ [pyLowerTrim s]) with
          | error er =>
            rw [hdl] at h
            simp at h
          | ok u2 =>
            rw [hdl] at h
            simp only [exceptBindOk] at h
            cases h
            obtain ⟨hsub, hseen, hpair, hcov⟩ :=
              dedupeList_spec rest (seen ++ [pyLowerTrim s]) u2 hdl
            have hanyf : ∀ o ∈ seen, containsEitherWay (pyLowerTrim s) o = false := by
              intro o ho
              by_cases hq : containsEitherWay (pyLowerTrim s) o = true
              · exact absurd (List.any_eq_true.mpr ⟨o, ho, hq⟩) hany
              · simpa using hq
            refine ⟨?_, ?_, ?_, ?_⟩
            · simpa [pyToList] using hsub.cons₂ e
            · intro x hx o ho
              simp only [pyToList] at hx
              rcases List.mem_cons.mp hx with hx | hx
              · subst hx
                rw [hval]
                exact hanyf o ho
              · exact hseen x hx o (by simp [ho])
            · rw [pyToList]
              rw [List.pairwise_cons]
              constructor
              · intro b hb
                have := hseen b hb (pyLowerTrim s) (by simp)
                rw [hval]
                exact this
              · exact hpair
            · intro x hx
              simp only [pyToList] at hx
              rcases List.mem_cons.mp hx with hx | hx
              · subst hx
                exact Or.inl (by simp [pyToList])
              · rcases hcov x hx with hx2 | ⟨o, ho, hro⟩ | ⟨a, ha, hra⟩
                · exact Or.inl (by simp [pyToList, hx2])
                · rcases List.mem_append.mp ho with ho2 | ho2
                  · exact Or.inr (Or.inl ⟨o, ho2, hro⟩)
                  · refine Or.inr (Or.inr ⟨e, by simp [pyToList], ?_⟩)
                    rw [hval]
                    simp only [List.mem_singleton] at ho2
                    rw [← ho2]
                    exact hro
                · exact Or.inr (Or.inr ⟨a, by simp [pyToList, ha], hra⟩)
      | vnum n => simp at h
      | vfloat r => simp at h
      | vbool b => simp at h
      | vnull => simp at h
      | vlist ys => simp at h
      | vdict kvs => simp at h

theorem dedupeList_head (e : PyVal) (rest : PyList) (u : PyList)
    (h : dedupeList (.cons e rest) [] = .ok u) :
    ∃ u2, u = .cons e u2 := by
  unfold dedupeList at h
  cases hg : getItem e "value" with
  | error er =>
    rw [hg] at h
    simp at h
  | ok ev =>
    rw [hg] at h
    simp only [exceptBindOk] at h
    cases ev with
    | vstr s =>
      dsimp only at h
      simp only [List.any_nil, Bool.false_eq_true, if_false, List.nil_append] at h
      cases hdl : dedupeList rest [pyLowerTrim s] with
      | error er =>
        rw [hdl] at h
        simp at h
      | ok u2 =>
        rw [hdl] at h
        simp only [exceptBindOk] at h
        cases h
        exact ⟨u2, rfl⟩
    | vnum n => simp at h
    | vfloat r => simp at h
    | vbool b => simp at h
    | vnull => simp at h
    | vlist ys => simp at h
    | vdict kvs => simp at h

theorem dedupe_facts_lookup : ∀ (facts res : PyDict) (k : String),
    dedupe_facts facts = .ok res →
    (∀ v, lookupKv facts k = some v → ∃ nv, lookupKv res k = some nv ∧ dedupeVal v = .ok nv)
    ∧ (lookupKv facts k = none → lookupKv res k = none)
  | .nil, res, k, h => by
    cases h
    constructor
    · intro v hv
      simp [lookupKv] at hv
    · intro _
      rfl
  | .cons k2 v2 rest, res, k, h => by
    unfold dedupe_facts at h
    cases hdv : dedupeVal v2 with
    | error er =>
      rw [hdv] at h
      simp at h
    | ok nv2 =>
      rw [hdv] at h
      simp only [exceptBindOk] at h
      cases hdr : dedupe_facts rest with
      | error er =>
        rw [hdr] at h
        simp at h
      | ok nrest =>
        rw [hdr] at h
        simp only [exceptBindOk] at h
        cases h
        obtain ⟨ih1, ih2⟩ := dedupe_facts_lookup rest nrest k hdr
        by_cases hk : k2 = k
        · subst hk
          constructor
          · intro v hv
            rw [lookupKv] at hv
            rw [if_pos rfl] at hv
            cases hv
            exact ⟨nv2, by simp [lookupKv], hdv⟩
          · intro hv
            rw [lookupKv, if_pos rfl] at hv
            cases hv
        · constructor
          · intro v hv
            rw [lookupKv, if_neg hk] at hv
            obtain ⟨nv, hnv, hdv2⟩ := ih1 v hv
            exact ⟨nv, by rw [lookupKv, if_neg hk]; exact hnv, hdv2⟩
          · intro hv
            rw [lookupKv, if_neg hk] at hv
            rw [lookupKv, if_neg hk]
            exact ih2 hv

theorem dedupeVal_list (xs : PyList) (nv : PyVal)
    (h : dedupeVal (.vlist xs) = .ok nv) :
    ∃ u, nv = .vlist u ∧ dedupeList xs [] = .ok u := by
  unfold dedupeVal at h
  dsimp only at h
  cases hdl : dedupeList xs [] with
  | error er =>
    rw [hdl] at h
    simp at h
  | ok u =>
    rw [hdl] at h
    simp only [exceptBindOk] at h
    cases h
    exact ⟨u, rfl, rfl⟩

theorem dedupeVal_nonlist : ∀ (v : PyVal), (∀ xs, v ≠ .vlist xs) → dedupeVal v = .ok v
  | .vstr _, _ => rfl
  | .vnum _, _ => rfl
  | .vfloat _, _ => rfl
  | .vbool _, _ => rfl
  | .vnull, _ => rfl
  | .vdict _, _ => rfl
  | .vlist xs, hv => absurd rfl (hv xs)

/-- C9: for every list-valued category the Deduplicator keeps a subsequence
scanned in order: the first entry always survives, the accepted entries are
pairwise free of case-insensitive trimmed substring containment, every
original entry either survives or containment-matches an accepted entry, and
every non-list category is untouched. -/
theorem claim_C9_dedupe (facts res : PyDict) (h : dedupe_facts facts = .ok res) :
    (∀ k xs, lookupKv facts k = some (.vlist xs) →
      ∃ u, lookupKv res k = some (.vlist u)
        ∧ (pyToList u).Sublist (pyToList xs)
        ∧ (pyToList u).Pairwise
            (fun a b => containsEitherWay (entryValLT b) (entryValLT a) = false)
        ∧ (∀ e ∈ pyToList xs, e ∈ pyToList u
            ∨ ∃ a ∈ pyToList u, containsEitherWay (entryValLT e) (entryValLT a) = true)
        ∧ (∀ e rest2, xs = .cons e rest2 → ∃ u2, u = .cons e u2))
    ∧ (∀ k v, lookupKv facts k = some v → (∀ xs, v ≠ .vlist xs) →
        lookupKv res k = some v) := by
  constructor
  · intro k xs hl
    obtain ⟨nv, hnv, hdv⟩ := (dedupe_facts_lookup facts res k h).1 _ hl
    obtain ⟨u, rfl, hdl⟩ := dedupeVal_list xs nv hdv
    obtain ⟨hsub, _, hpair, hcov⟩ := dedupeList_spec xs [] u hdl
    refine ⟨u, hnv, hsub, hpair, ?_, ?_⟩
    · intro e he
      rcases hcov e he with h1 | ⟨o, ho, _⟩ | h3
      · exact Or.inl h1
      · simp at ho
      · exact Or.inr h3
    · intro e rest2 hxs
      subst hxs
      exact dedupeList_head e rest2 u hdl
  · intro k v hl hnl
    obtain ⟨nv, hnv, hdv⟩ := (dedupe_facts_lookup facts res k h).1 _ hl
    rw [dedupeVal_nonlist v hnl] at hdv
    cases hdv
    exact hnv

/-- A store with `Hobby` entries `["chess", "playing chess"]` and a singleton
`Name`, for the dedup witness. -/
def c9store : PyDict :=
  .cons "Name" (mkEntry (.vstr "Al") (.vstr "t0"))
    (.cons "Hobby" (.vlist (.cons (mkEntry (.vstr "chess") (.vstr "t1"))
      (.cons (mkEntry (.vstr "playing chess") (.vstr "t2")) .nil))) .nil)

/-- The deduplicated form of `c9store`: a single surviving `Hobby` entry. -/
def c9result : PyDict :=
  .cons "Name" (mkEntry (.vstr "Al") (.vstr "t0"))
    (.cons "Hobby" (.vlist (.cons (mkEntry (.vstr "chess") (.vstr "t1")) .nil)) .nil)

/-- Witness for C9: `["chess", "playing chess"]` collapses to the single
first-encountered entry and the singleton `Name` category is untouched. -/
theorem claim_C9_witness :
    dedupe_facts c9store = .ok c9result
    ∧ (∃ u, lookupKv c9result "Hobby" = some (.vlist u)
        ∧ (pyToList u).Sublist
            (pyToList (.cons (mkEntry (.vstr "chess") (.vstr "t1"))
              (.cons (mkEntry (.vstr "playing chess") (.vstr "t2")) .nil))))
    ∧ lookupKv c9result "Name" = some (mkEntry (.vstr "Al") (.vstr "t0")) := by
  refine ⟨rfl, ?_, ?_⟩
  · obtain ⟨u, h1, h2, _⟩ := (claim_C9_dedupe c9store c9result rfl).1 "Hobby"
      (.cons (mkEntry (.vstr "chess") (.vstr "t1"))
        (.cons (mkEntry (.vstr "playing chess") (.vstr "t2")) .nil)) rfl
    exact ⟨u, h1, h2⟩
  · exact (claim_C9_dedupe c9store c9result rfl).2 "Name"
      (mkEntry (.vstr "Al") (.vstr "t0")) rfl (fun _ hx => PyVal.noConfusion hx)

/-!
Machinery for the name-capture claim: correctness facts about the substring
test, and the link between a successful pattern search and substring
containment of the pattern literal (used to show the negation guard and the
earlier `call me` pattern cannot fire).
-/

theorem listIsPre_refl_append : ∀ (a rest : List Char), listIsPre a (a ++ rest) = true
  | [], _ => rfl
  | c :: a, rest => by simp [listIsPre, listIsPre_refl_append a rest]

theorem listIsSub_of_pre : ∀ (a b : List Char), listIsPre a b = true → listIsSub a b = true
  | a, [], h => by simpa [listIsSub] using h
  | a, b :: bs, h => by simp [listIsSub, h]

theorem listIsSub_cons (a : List Char) (c : Char) (t : List Char)
    (h : listIsSub a t = true) : listIsSub a (c :: t) = true := by
  simp [listIsSub, h]

theorem listIsSub_append_front : ∀ (p t a : List Char),
    listIsSub a t = true → listIsSub a (p ++ t) = true
  | [], t, a, h => h
  | c :: p, t, a, h => by
    simpa using listIsSub_cons a c (p ++ t) (listIsSub_append_front p t a h)

theorem listIsSub_of_drop (a t : List Char) (n : Nat)
    (h : listIsSub a (t.drop n) = true) : listIsSub a t = true := by
  have := listIsSub_append_front (t.take n) (t.drop n) a h
  rwa [List.take_append_drop] at this

/-- A successful literal match exhibits the literal as the lowercase image of
a prefix of the input. -/
theorem matchLit_some : ∀ (lit xs rem : List Char), matchLit lit xs = some rem →
    ∃ pre, xs = pre ++ rem ∧ pre.map Char.toLower = lit
  | [], xs, rem, h => by
    cases h
    exact ⟨[], rfl, rfl⟩
  | p :: ps, [], rem, h => by cases h
  | p :: ps, c :: cs, rem, h => by
    unfold matchLit at h
    by_cases hc : c.toLower == p
    · rw [if_pos hc] at h
      obtain ⟨pre, hxs, hlow⟩ := matchLit_some ps cs rem h
      refine ⟨c :: pre, by rw [hxs]; rfl, ?_⟩
      simp [hlow, beq_iff_eq.mp hc]
    · rw [if_neg hc] at h
      cases h

/-- A successful match of `lit` at the head makes `lit` a substring of the
lowercased input. -/
theorem listIsSub_of_matchLit {lit xs rem : List Char}
    (h : matchLit lit xs = some rem) :
    listIsSub lit (xs.map Char.toLower) = true := by
  obtain ⟨pre, rfl, hlow⟩ := matchLit_some lit xs rem h
  rw [List.map_append, ← hlow]
  exact listIsSub_of_pre _ _ (listIsPre_refl_append _ _)

/-- A name-pattern search that fires anywhere makes its literal a substring
of the lowercased input. -/
theorem searchPlain_nameCap_sub : ∀ (lit cs cap : List Char),
    searchPlain (nameCapHere lit) cs = some cap →
    listIsSub lit (cs.map Char.toLower) = true
  | lit, [], cap, h => by simp [searchPlain] at h
  | lit, c :: cs, cap, h => by
    unfold searchPlain at h
    cases hm : nameCapHere lit (c :: cs) with
    | some cap2 =>
      unfold nameCapHere at hm
      cases hml : matchLit lit (c :: cs) with
      | none =>
        rw [hml] at hm
        simp at hm
      | some rem => exact listIsSub_of_matchLit hml
    | none =>
      rw [hm] at h
      simpa using listIsSub_cons lit c.toLower _ (searchPlain_nameCap_sub lit cs cap h)

/-- A firing negation guard makes `call me` a substring of the lowercased
input. -/
theorem searchNegB_sub : ∀ (cs : List Char), searchNegB cs = true →
    listIsSub callMeLit (cs.map Char.toLower) = true
  | [], h => by simp [searchNegB] at h
  | c :: cs, h => by
    unfold searchNegB at h
    cases hn : negHere (c :: cs) with
    | true =>
      unfold negHere at hn
      obtain ⟨lit, hlit, hmatch⟩ := List.any_eq_true.mp hn
      cases hml : matchLit lit (c :: cs) with
      | none =>
        rw [hml] at hmatch
        simp at hmatch
      | some rem =>
        rw [hml] at hmatch
        unfold negTail at hmatch
        dsimp only at hmatch
        by_cases hn0 : wsCount rem = 0
        · rw [if_pos hn0] at hmatch
          cases hmatch
        · rw [if_neg hn0] at hmatch
          cases hml2 : matchLit callMeLit (rem.drop (wsCount rem)) with
          | none =>
            rw [hml2] at hmatch
            cases hmatch
          | some rem2 =>
            have hsubdrop := listIsSub_of_matchLit hml2
            rw [List.map_drop] at hsubdrop
            have hsubrem := listIsSub_of_drop _ _ _ hsubdrop
            obtain ⟨pre, hxs, _⟩ := matchLit_some lit (c :: cs) rem hml
            rw [hxs, List.map_append]
            exact listIsSub_append_front _ _ _ hsubrem
    | false =>
      rw [hn] at h
      simp only [Bool.false_or] at h
      simpa using listIsSub_cons callMeLit c.toLower _ (searchNegB_sub cs h)

theorem classRun_all : ∀ (p : Char → Bool) (l : List Char),
    (∀ c ∈ l, p c = true) → classRun p l = l
  | _, [], _ => rfl
  | p, c :: cs, h => by
    have hc := h c (by simp)
    simp [classRun, hc, classRun_all p cs (fun x hx => h x (by simp [hx]))]

theorem lengthDropWhileLe : ∀ (p : Char → Bool) (l : List Char),
    (l.dropWhile p).length ≤ l.length
  | _, [] => Nat.le_refl 0
  | p, c :: t => by
    rw [List.dropWhile_cons]
    by_cases hp : p c = true
    · rw [if_pos hp]
      exact (lengthDropWhileLe p t).trans (Nat.le_succ _)
    · rw [if_neg hp]

theorem listStrip_head_not_ws (c : Char) (t : List Char)
    (h : listStrip (c :: t) = c :: t) : c.isWhitespace = false := by
  by_cases hw : c.isWhitespace = true
  · exfalso
    have hlen : (listStrip (c :: t)).length ≤ t.length := by
      unfold listStrip
      rw [List.dropWhile_cons, if_pos hw]
      calc ((List.dropWhile Char.isWhitespace t).reverse.dropWhile Char.isWhitespace).reverse.length
          = ((List.dropWhile Char.isWhitespace t).reverse.dropWhile Char.isWhitespace).length := by
            rw [List.length_reverse]
        _ ≤ (List.dropWhile Char.isWhitespace t).reverse.length := lengthDropWhileLe _ _
        _ = (List.dropWhile Char.isWhitespace t).length := by rw [List.length_reverse]
        _ ≤ t.length := lengthDropWhileLe _ _
    rw [h] at hlen
    simp at hlen
  · simpa using hw

/-- Whether every entry of a stored list is a dict with a string value — the
shape on which the Deduplicator cannot raise. -/
def wfDedupList : PyList → Bool
  | .nil => true
  | .cons (.vdict kvs) rest =>
    (match lookupKv kvs "value" with
     | some (.vstr _) => true
     | _ => false) && wfDedupList rest
  | .cons _ _ => false

/-- Whether every list-valued category of a store is `wfDedupList`. -/
def wfDedupStore : PyDict → Bool
  | .nil => true
  | .cons _ (.vlist xs) rest => wfDedupList xs && wfDedupStore rest
  | .cons _ _ rest => wfDedupStore rest

theorem dedupeList_wf_ok : ∀ (xs : PyList) (seen : List (List Char)),
    wfDedupList xs = true → ∃ u, dedupeList xs seen = .ok u
  | .nil, seen, _ => ⟨.nil, rfl⟩
  | .cons e rest, seen, h => by
    cases e with
    | vdict kvs =>
      simp only [wfDedupList, Bool.and_eq_true] at h
      obtain ⟨h1, h2⟩ := h
      cases hl : lookupKv kvs "value" with
      | none =>
        rw [hl] at h1
        cases h1
      | some w =>
        rw [hl] at h1
        cases w with
        | vstr s =>
          unfold dedupeList
          have hg : getItem (.vdict kvs) "value" = .ok (.vstr s) := by
            simp [getItem, hl]
          rw [hg]
          simp only [exceptBindOk]
          by_cases hany :
              seen.any (fun other => containsEitherWay (pyLowerTrim s) other) = true
          · rw [if_pos hany]
            exact dedupeList_wf_ok rest seen h2
          · rw [if_neg hany]
            obtain ⟨u, hu⟩ := dedupeList_wf_ok rest (seen ++ [pyLowerTrim s]) h2
            exact ⟨.cons (.vdict kvs) u, by rw [hu]; rfl⟩
        | vnum n => cases h1
        | vfloat r => cases h1
        | vbool b => cases h1
        | vnull => cases h1
        | vlist ys => cases h1
        | vdict kvs2 => cases h1
    | vstr s => cases h
    | vnum n => cases h
    | vfloat r => cases h
    | vbool b => cases h
    | vnull => cases h
    | vlist ys => cases h

theorem dedupe_facts_wf_ok : ∀ (st : PyDict), wfDedupStore st = true →
    ∃ res, dedupe_facts st = .ok res
  | .nil, _ => ⟨.nil, rfl⟩
  | .cons k v rest, h => by
    have hsplit : dedupeVal v = .ok v ∨
        (∃ xs, v = .vlist xs ∧ wfDedupList xs = true ∧ wfDedupStore rest = true) := by
      cases v with
      | vlist xs =>
        simp only [wfDedupStore, Bool.and_eq_true] at h
        exact Or.inr ⟨xs, rfl, h.1, h.2⟩
      | vstr s => exact Or.inl rfl
      | vnum n => exact Or.inl rfl
      | vfloat r => exact Or.inl rfl
      | vbool b => exact Or.inl rfl
      | vnull => exact Or.inl rfl
      | vdict kvs => exact Or.inl rfl
    have hrest : wfDedupStore rest = true := by
      cases v with
      | vlist xs =>
        simp only [wfDedupStore, Bool.and_eq_true] at h
        exact h.2
      | vstr s => exact h
      | vnum n => exact h
      | vfloat r => exact h
      | vbool b => exact h
      | vnull => exact h
      | vdict kvs => exact h
    obtain ⟨res0, hres0⟩ := dedupe_facts_wf_ok rest hrest
    rcases hsplit with hdv | ⟨xs, rfl, hwfl, _⟩
    · exact ⟨.cons k v res0, by unfold dedupe_facts; rw [hdv, hres0]; rfl⟩
    · obtain ⟨u, hu⟩ := dedupeList_wf_ok xs [] hwfl
      refine ⟨.cons k (.vlist u) res0, ?_⟩
      unfold dedupe_facts
      have hdv : dedupeVal (.vlist xs) = .ok (.vlist u) := by
        simp [dedupeVal, hu]
      rw [hdv, hres0]
      rfl

theorem wfDedupStore_insert_dict : ∀ (st : PyDict) (k : String) (kvs : PyDict),
    wfDedupStore st = true → wfDedupStore (insertKv st k (.vdict kvs)) = true
  | .nil, k, kvs, _ => rfl
  | .cons k2 v rest, k, kvs, h => by
    have hrest : wfDedupStore rest = true := by
      cases v with
      | vlist xs =>
        simp only [wfDedupStore, Bool.and_eq_true] at h
        exact h.2
      | vstr s => exact h
      | vnum n => exact h
      | vfloat r => exact h
      | vbool b => exact h
      | vnull => exact h
      | vdict kvs2 => exact h
    unfold insertKv
    by_cases hk : k2 = k
    · rw [if_pos hk]
      exact hrest
    · rw [if_neg hk]
      have hins := wfDedupStore_insert_dict rest k kvs hrest
      cases v with
      | vlist xs =>
        simp only [wfDedupStore, Bool.and_eq_true] at h ⊢
        exact ⟨h.1, hins⟩
      | vstr s => exact hins
      | vnum n => exact hins
      | vfloat r => exact hins
      | vbool b => exact hins
      | vnull => exact hins
      | vdict kvs2 => exact hins

theorem strToListAppend (s t : String) : (s ++ t).toList = s.toList ++ t.toList := by
  simp [String.toList, String.data_append]

/-- C10: on an utterance `"my name is " ++ rest` whose continuation consists
of name-class characters (letters, digits, underscores, inner spaces; no
surrounding whitespace), where the lowercased utterance does not contain
`call me` (so neither the negation guard nor the earlier `call me` pattern
can fire), the fast path fires and stores the entire continuation — not just
the first token — as the `Name` value. -/
theorem claim_C10_name_capture (rest : String) (existing : PyDict) (now : String)
    (hne : rest.toList ≠ [])
    (hclass : ∀ c ∈ rest.toList, isNameCh c = true)
    (hstrip : listStrip rest.toList = rest.toList)
    (hsub : listIsSub callMeLit
        ((("my name is " ++ rest).toList).map Char.toLower) = false)
    (hwf : wfDedupStore existing = true) :
    ∃ ded, extract_facts_fast ("my name is " ++ rest) existing now = some (.ok ded)
      ∧ lookupKv ded "Name" = some (mkEntry (.vstr rest) (.vstr now)) := by
  have hcs : ("my name is " ++ rest).toList = "my name is ".toList ++ rest.toList :=
    strToListAppend _ _
  obtain ⟨c, t, hct⟩ : ∃ c t, rest.toList = c :: t := by
    cases hr : rest.toList with
    | nil => exact absurd hr hne
    | cons c t => exact ⟨c, t, rfl⟩
  have hnotws : c.isWhitespace = false := by
    refine listStrip_head_not_ws c t ?_
    rw [← hct]
    exact hstrip
  have hneg : searchNegB (("my name is " ++ rest).toList) = false := by
    by_cases hb : searchNegB (("my name is " ++ rest).toList) = true
    · exact absurd (searchNegB_sub _ hb) (by rw [hsub]; simp)
    · simpa using hb
  have hcm : searchPlain (nameCapHere callMeLit) (("my name is " ++ rest).toList) = none := by
    cases hb : searchPlain (nameCapHere callMeLit) (("my name is " ++ rest).toList) with
    | none => rfl
    | some cap =>
      exact absurd (searchPlain_nameCap_sub _ _ _ hb) (by rw [hsub]; simp)
  have hml : matchLit myNameIsLit ("my name is ".toList ++ rest.toList)
      = some (' ' :: rest.toList) := rfl
  have hws : wsCount (' ' :: rest.toList) = 1 := by
    rw [hct]
    show wsCount (' ' :: c :: t) = 1
    unfold wsCount
    rw [if_pos (by decide)]
    unfold wsCount
    rw [if_neg (by simp [hnotws])]
  have hcap : capAfterWs (' ' :: rest.toList) = some rest.toList := by
    unfold capAfterWs
    rw [hws]
    unfold tryCapFrom
    have hdrop : (' ' :: rest.toList).drop (0 + 1) = rest.toList := rfl
    rw [hdrop, classRun_all isNameCh rest.toList hclass]
    rw [hct]
    simp [List.isEmpty]
  have hnch : nameCapHere myNameIsLit ("my name is ".toList ++ rest.toList)
      = some rest.toList := by
    unfold nameCapHere
    rw [hml]
    simpa using hcap
  have hsp : searchPlain (nameCapHere myNameIsLit)
      ("my name is ".toList ++ rest.toList) = some rest.toList := by
    rw [show "my name is ".toList ++ rest.toList
        = 'm' :: ("y name is ".toList ++ rest.toList) from rfl]
    unfold searchPlain
    rw [show ('m' :: ("y name is ".toList ++ rest.toList))
        = "my name is ".toList ++ rest.toList from rfl, hnch]
  have hfnc : firstNameCap (("my name is " ++ rest).toList) = some rest.toList := by
    unfold firstNameCap
    rw [hcm, hcs, hsp]
    rfl
  have hwf2 : wfDedupStore
      (insertKv existing "Name" (mkEntry (.vstr rest) (.vstr now))) = true :=
    wfDedupStore_insert_dict existing "Name" _ hwf
  obtain ⟨ded, hded⟩ := dedupe_facts_wf_ok _ hwf2
  refine ⟨ded, ?_, ?_⟩
  · unfold extract_facts_fast
    dsimp only
    rw [hneg]
    simp only [Bool.false_eq_true, if_false]
    rw [hfnc]
    dsimp only
    rw [hstrip]
    rw [show String.mk rest.toList = rest from rfl]
    rw [hded]
  · obtain ⟨nv, hnv, hdv⟩ := (dedupe_facts_lookup _ ded "Name" hded).1
      (mkEntry (.vstr rest) (.vstr now)) (lookupKv_insertKv_self _ _ _)
    rw [dedupeVal_nonlist _ (fun xs hx => by simp [mkEntry] at hx)] at hdv
    cases hdv
    exact hnv

/-- Witness for C10: `"my name is Bob and I like tea"` stores
`Name = "Bob and I like tea"`, the whole continuation. -/
theorem claim_C10_witness :
    ∃ ded, extract_facts_fast ("my name is " ++ "Bob and I like tea") .nil "T"
        = some (.ok ded)
      ∧ lookupKv ded "Name"
        = some (mkEntry (.vstr "Bob and I like tea") (.vstr "T")) :=
  claim_C10_name_capture "Bob and I like tea" .nil "T" (by decide) (by decide)
    (by decide) (by decide) rfl

/-!
Machinery for the idempotence claim.

`vcVal` describes the stores on which the amended idempotence holds: every
dict sitting in the value position of a canonical (`value` + `timestamp`)
entry itself carries both keys, recursively; category-map values and list
elements are constrained the same way; a list sitting in a value position is
inert for the Normalizer and needs no constraint.

`nfVal` describes the Normalizer's fixed points: canonical entries are
exactly the two-key `{"value", "timestamp"}` dicts with a non-dict value,
category maps carry fixed-point values and do not themselves have both keys,
and lists are flat with fixed-point non-list elements.
-/

def isDictB : PyVal → Bool
  | .vdict _ => true
  | _ => false

def isListB : PyVal → Bool
  | .vlist _ => true
  | _ => false

/-- The exact two-key canonical entry shape with a non-dict value. -/
def isExactEntry : PyDict → Bool
  | .cons k1 v (.cons k2 _ .nil) =>
    k1 == "value" && k2 == "timestamp" && !(isDictB v)
  | _ => false

mutual
def vcVal : PyVal → Bool
  | .vstr _ => true
  | .vnum _ => true
  | .vfloat _ => true
  | .vbool _ => true
  | .vnull => true
  | .vlist xs => vcList xs
  | .vdict kvs =>
    if hasKey kvs "value" && hasKey kvs "timestamp" then vcField kvs
    else vcDict kvs

/-- Walk to the first `"value"` binding: a dict there must itself be
canonical and recursively well-formed. -/
def vcField : PyDict → Bool
  | .nil => true
  | .cons k v rest =>
    if k = "value" then
      match v with
      | .vdict inner =>
        (hasKey inner "value" && hasKey inner "timestamp") && vcVal (.vdict inner)
      | _ => true
    else vcField rest

def vcDict : PyDict → Bool
  | .nil => true
  | .cons _ v rest => vcVal v && vcDict rest

def vcList : PyList → Bool
  | .nil => true
  | .cons x xs => vcVal x && vcList xs
end

mutual
def nfVal : PyVal → Bool
  | .vstr _ => false
  | .vnum _ => true
  | .vfloat _ => true
  | .vbool _ => true
  | .vnull => true
  | .vlist xs => nfListElems xs
  | .vdict kvs =>
    if hasKey kvs "value" && hasKey kvs "timestamp" then isExactEntry kvs
    else nfDict kvs

def nfDict : PyDict → Bool
  | .nil => true
  | .cons _ v rest => nfVal v && nfDict rest

def nfListElems : PyList → Bool
  | .nil => true
  | .cons x xs => !(isListB x) && nfVal x && nfListElems xs
end

theorem nfElems_append : ∀ (a b : PyList), nfListElems a = true →
    nfListElems b = true → nfListElems (pyAppend a b) = true
  | .nil, b, _, hb => hb
  | .cons x xs, b, ha, hb => by
    simp only [nfListElems, Bool.and_eq_true] at ha
    simp only [pyAppend, nfListElems, Bool.and_eq_true]
    exact ⟨⟨ha.1.1, ha.1.2⟩, nfElems_append xs b ha.2 hb⟩

theorem normalizeVals_keys : ∀ (d d2 : PyDict) (now : String),
    normalizeVals now d = .ok d2 → ∀ k, hasKey d2 k = hasKey d k
  | .nil, d2, now, h => by
    cases h
    intro k
    rfl
  | .cons k1 v rest, d2, now, h => by
    unfold normalizeVals at h
    cases hnv : normalize_entry now v with
    | error er =>
      rw [hnv] at h
      simp at h
    | ok nv =>
      rw [hnv] at h
      simp only [exceptBindOk] at h
      cases hnr : normalizeVals now rest with
      | error er =>
        rw [hnr] at h
        simp at h
      | ok nrest =>
        rw [hnr] at h
        simp only [exceptBindOk] at h
        cases h
        intro k
        by_cases hk : k1 = k
        · simp [hasKey, lookupKv, hk]
        · simp only [hasKey, lookupKv, if_neg hk]
          exact normalizeVals_keys rest nrest now hnr k

mutual
theorem nfFix : ∀ (e : PyVal), nfVal e = true → ∀ now,
    normalize_entry now e = .ok e
  | .vstr s, h, now => by simp [nfVal] at h
  | .vnum n, _, now => rfl
  | .vfloat r, _, now => rfl
  | .vbool b, _, now => rfl
  | .vnull, _, now => rfl
  | .vlist xs, h, now => by
    simp only [nfVal] at h
    obtain ⟨h1, h2⟩ := nfFixList xs h now
    unfold normalize_entry
    rw [h1]
    simp only [exceptBindOk]
    rw [h2]
  | .vdict kvs, h, now => by
    simp only [nfVal] at h
    by_cases hb : (hasKey kvs "value" && hasKey kvs "timestamp") = true
    · rw [if_pos hb] at h
      cases kvs with
      | nil => simp [isExactEntry] at h
      | cons k1 v rest =>
        cases rest with
        | nil => simp [isExactEntry] at h
        | cons k2 ts rest2 =>
          cases rest2 with
          | cons k3 v3 rest3 => simp [isExactEntry] at h
          | nil =>
            simp only [isExactEntry, Bool.and_eq_true, beq_iff_eq,
              Bool.not_eq_eq_eq_not, Bool.not_true] at h
            obtain ⟨⟨hk1, hk2⟩, hv⟩ := h
            subst hk1
            subst hk2
            unfold normalize_entry
            rw [if_pos hb]
            have hf : normValField now
                (.cons "value" v (.cons "timestamp" ts .nil)) = .ok v := by
              unfold normValField
              rw [if_pos rfl]
              cases v with
              | vdict inner => simp [isDictB] at hv
              | vstr s => rfl
              | vnum n => rfl
              | vfloat r => rfl
              | vbool b => rfl
              | vnull => rfl
              | vlist xs => rfl
            rw [hf]
            simp only [exceptBindOk]
            have hts : lookupKv (.cons "value" v (.cons "timestamp" ts .nil))
                "timestamp" = some ts := by
              simp [lookupKv]
            rw [hts]
            simp [mkEntry]
    · rw [if_neg hb] at h
      unfold normalize_entry
      rw [if_neg hb]
      rw [nfFixDict kvs h now]
      rfl

theorem nfFixDict : ∀ (d : PyDict), nfDict d = true → ∀ now,
    normalizeVals now d = .ok d
  | .nil, _, now => rfl
  | .cons k v rest, h, now => by
    simp only [nfDict, Bool.and_eq_true] at h
    unfold normalizeVals
    rw [nfFix v h.1 now]
    simp only [exceptBindOk]
    rw [nfFixDict rest h.2 now]
    rfl

theorem nfFixList : ∀ (xs : PyList), nfListElems xs = true → ∀ now,
    normalizeList now xs = .ok xs ∧ flattenOnce xs = xs
  | .nil, _, now => ⟨rfl, rfl⟩
  | .cons x rest, h, now => by
    simp only [nfListElems, Bool.and_eq_true, Bool.not_eq_eq_eq_not,
      Bool.not_true] at h
    obtain ⟨⟨hnl, hnf⟩, hrest⟩ := h
    obtain ⟨ih1, ih2⟩ := nfFixList rest hrest now
    constructor
    · unfold normalizeList
      rw [nfFix x hnf now]
      simp only [exceptBindOk]
      rw [ih1]
      rfl
    · cases x with
      | vlist ys => simp [isListB] at hnl
      | vstr s => simp only [flattenOnce]; rw [ih2]
      | vnum n => simp only [flattenOnce]; rw [ih2]
      | vfloat r => simp only [flattenOnce]; rw [ih2]
      | vbool b => simp only [flattenOnce]; rw [ih2]
      | vnull => simp only [flattenOnce]; rw [ih2]
      | vdict kvs => simp only [flattenOnce]; rw [ih2]
end

theorem normValField_nondict (now : String) (k : String) (v : PyVal)
    (rest : PyDict) (hkv : k = "value") (hnd : isDictB v = false) :
    normValField now (.cons k v rest) = .ok v := by
  unfold normValField
  rw [if_pos hkv]
  cases v with
  | vdict inner => simp [isDictB] at hnd
  | vstr s => rfl
  | vnum n => rfl
  | vfloat r => rfl
  | vbool b => rfl
  | vnull => rfl
  | vlist xs => rfl

mutual
theorem vcNorm : ∀ (e : PyVal), vcVal e = true → ∀ now,
    ∃ e2, normalize_entry now e = .ok e2 ∧ nfVal e2 = true ∧ isListB e2 = isListB e
  | .vstr s, _, now => by
    refine ⟨mkEntry (.vstr s) (.vstr now), rfl, ?_, rfl⟩
    simp [nfVal, mkEntry, hasKey, lookupKv, isExactEntry, isDictB]
  | .vnum n, _, now => ⟨.vnum n, rfl, rfl, rfl⟩
  | .vfloat r, _, now => ⟨.vfloat r, rfl, rfl, rfl⟩
  | .vbool b, _, now => ⟨.vbool b, rfl, rfl, rfl⟩
  | .vnull, _, now => ⟨.vnull, rfl, rfl, rfl⟩
  | .vlist xs, h, now => by
    simp only [vcVal] at h
    obtain ⟨ys, hys, hnf⟩ := vcNormList xs h now
    refine ⟨.vlist (flattenOnce ys), ?_, hnf, rfl⟩
    unfold normalize_entry
    rw [hys]
    rfl
  | .vdict kvs, h, now => by
    simp only [vcVal] at h
    by_cases hb : (hasKey kvs "value" && hasKey kvs "timestamp") = true
    · rw [if_pos hb] at h
      have hb2 := hb
      simp only [Bool.and_eq_true] at hb2
      obtain ⟨w, hw, hwd⟩ := vcNormField kvs h hb2.1 now
      refine ⟨mkEntry w ((lookupKv kvs "timestamp").getD .vnull), ?_, ?_, rfl⟩
      · unfold normalize_entry
        rw [if_pos hb, hw]
        rfl
      · simp [nfVal, mkEntry, hasKey, lookupKv, isExactEntry, hwd]
    · rw [if_neg hb] at h
      obtain ⟨d2, hd2, hnfd⟩ := vcNormVals kvs h now
      refine ⟨.vdict d2, ?_, ?_, rfl⟩
      · unfold normalize_entry
        rw [if_neg hb, hd2]
        rfl
      · have hkeys := normalizeVals_keys kvs d2 now hd2
        simp only [nfVal]
        rw [hkeys "value", hkeys "timestamp", if_neg hb]
        exact hnfd

theorem vcNormField : ∀ (kvs : PyDict), vcField kvs = true →
    hasKey kvs "value" = true → ∀ now,
    ∃ w, normValField now kvs = .ok w ∧ isDictB w = false
  | .nil, _, hk, now => by simp [hasKey, lookupKv] at hk
  | .cons k (.vdict inner) rest, h, hk, now => by
    by_cases hkv : k = "value"
    · simp only [vcField, if_pos hkv, Bool.and_eq_true] at h
      obtain ⟨hbi, hvc⟩ := h
      have hbi2 : (hasKey inner "value" && hasKey inner "timestamp") = true := by
        simp [hbi.1, hbi.2]
      obtain ⟨nv, hnv, hnf, _⟩ := vcNorm (.vdict inner) hvc now
      unfold normalize_entry at hnv
      rw [if_pos hbi2] at hnv
      cases hf : normValField now inner with
      | error er =>
        rw [hf] at hnv
        simp at hnv
      | ok w2 =>
        rw [hf] at hnv
        simp only [exceptBindOk] at hnv
        cases hnv
        have hveq : normalize_entry now (.vdict inner)
            = .ok (mkEntry w2 ((lookupKv inner "timestamp").getD .vnull)) := by
          unfold normalize_entry
          rw [if_pos hbi2, hf]
          rfl
        refine ⟨w2, ?_, ?_⟩
        · unfold normValField
          rw [if_pos hkv]
          dsimp only
          rw [hveq]
          simp only [exceptBindOk]
          simp [getItem, mkEntry, lookupKv]
        · simp [nfVal, mkEntry, hasKey, lookupKv, isExactEntry] at hnf
          exact hnf
    · simp only [vcField, if_neg hkv] at h
      have hk2 : hasKey rest "value" = true := by
        simp only [hasKey, lookupKv, if_neg hkv] at hk
        exact hk
      obtain ⟨w, hw, hwd⟩ := vcNormField rest h hk2 now
      refine ⟨w, ?_, hwd⟩
      unfold normValField
      rw [if_neg hkv]
      exact hw
  | .cons k (.vstr s) rest, h, hk, now => by
    by_cases hkv : k = "value"
    · exact ⟨.vstr s, normValField_nondict now k (.vstr s) rest hkv rfl, rfl⟩
    · simp only [vcField, if_neg hkv] at h
      have hk2 : hasKey rest "value" = true := by
        simp only [hasKey, lookupKv, if_neg hkv] at hk
        exact hk
      obtain ⟨w, hw, hwd⟩ := vcNormField rest h hk2 now
      refine ⟨w, ?_, hwd⟩
      unfold normValField
      rw [if_neg hkv]
      exact hw
  | .cons k (.vnum n) rest, h, hk, now => by
    by_cases hkv : k = "value"
    · exact ⟨.vnum n, normValField_nondict now k (.vnum n) rest hkv rfl, rfl⟩
    · simp only [vcField, if_neg hkv] at h
      have hk2 : hasKey rest "value" = true := by
        simp only [hasKey, lookupKv, if_neg hkv] at hk
        exact hk
      obtain ⟨w, hw, hwd⟩ := vcNormField rest h hk2 now
      refine ⟨w, ?_, hwd⟩
      unfold normValField
      rw [if_neg hkv]
      exact hw
  | .cons k (.vfloat r) rest, h, hk, now => by
    by_cases hkv : k = "value"
    · exact ⟨.vfloat r, normValField_nondict now k (.vfloat r) rest hkv rfl, rfl⟩
    · simp only [vcField, if_neg hkv] at h
      have hk2 : hasKey rest "value" = true := by
        simp only [hasKey, lookupKv, if_neg hkv] at hk
        exact hk
      obtain ⟨w, hw, hwd⟩ := vcNormField rest h hk2 now
      refine ⟨w, ?_, hwd⟩
      unfold normValField
      rw [if_neg hkv]
      exact hw
  | .cons k (.vbool b) rest, h, hk, now => by
    by_cases hkv : k = "value"
    · exact ⟨.vbool b, normValField_nondict now k (.vbool b) rest hkv rfl, rfl⟩
    · simp only [vcField, if_neg hkv] at h
      have hk2 : hasKey rest "value" = true := by
        simp only [hasKey, lookupKv, if_neg hkv] at hk
        exact hk
      obtain ⟨w, hw, hwd⟩ := vcNormField rest h hk2 now
      refine ⟨w, ?_, hwd⟩
      unfold normValField
      rw [if_neg hkv]
      exact hw
  | .cons k .vnull rest, h, hk, now => by
    by_cases hkv : k = "value"
    · exact ⟨.vnull, normValField_nondict now k .vnull rest hkv rfl, rfl⟩
    · simp only [vcField, if_neg hkv] at h
      have hk2 : hasKey rest "value" = true := by
        simp only [hasKey, lookupKv, if_neg hkv] at hk
        exact hk
      obtain ⟨w, hw, hwd⟩ := vcNormField rest h hk2 now
      refine ⟨w, ?_, hwd⟩
      unfold normValField
      rw [if_neg hkv]
      exact hw
  | .cons k (.vlist xs) rest, h, hk, now => by
    by_cases hkv : k = "value"
    · exact ⟨.vlist xs, normValField_nondict now k (.vlist xs) rest hkv rfl, rfl⟩
    · simp only [vcField, if_neg hkv] at h
      have hk2 : hasKey rest "value" = true := by
        simp only [hasKey, lookupKv, if_neg hkv] at hk
        exact hk
      obtain ⟨w, hw, hwd⟩ := vcNormField rest h hk2 now
      refine ⟨w, ?_, hwd⟩
      unfold normValField
      rw [if_neg hkv]
      exact hw

theorem vcNormVals : ∀ (d : PyDict), vcDict d = true → ∀ now,
    ∃ d2, normalizeVals now d = .ok d2 ∧ nfDict d2 = true
  | .nil, _, now => ⟨.nil, rfl, rfl⟩
  | .cons k v rest, h, now => by
    simp only [vcDict, Bool.and_eq_true] at h
    obtain ⟨nv, hnv, hnf, _⟩ := vcNorm v h.1 now
    obtain ⟨d2, hd2, hnfd⟩ := vcNormVals rest h.2 now
    refine ⟨.cons k nv d2, ?_, ?_⟩
    · unfold normalizeVals
      rw [hnv]
      simp only [exceptBindOk]
      rw [hd2]
      rfl
    · simp [nfDict, hnf, hnfd]

theorem vcNormList : ∀ (xs : PyList), vcList xs = true → ∀ now,
    ∃ ys, normalizeList now xs = .ok ys ∧ nfListElems (flattenOnce ys) = true
  | .nil, _, now => ⟨.nil, rfl, rfl⟩
  | .cons x rest, h, now => by
    simp only [vcList, Bool.and_eq_true] at h
    obtain ⟨nx, hnx, hnf, hlist⟩ := vcNorm x h.1 now
    obtain ⟨ys, hys, hnfys⟩ := vcNormList rest h.2 now
    refine ⟨.cons nx ys, ?_, ?_⟩
    · unfold normalizeList
      rw [hnx]
      simp only [exceptBindOk]
      rw [hys]
      rfl
    · cases hcx : nx with
      | vlist zs =>
        simp only [flattenOnce]
        rw [hcx] at hnf
        simp only [nfVal] at hnf
        exact nfElems_append zs (flattenOnce ys) hnf hnfys
      | vstr s =>
        rw [hcx] at hnf
        simp [flattenOnce, nfListElems, isListB, hnf, hnfys]
      | vnum n =>
        rw [hcx] at hnf
        simp [flattenOnce, nfListElems, isListB, hnf, hnfys]
      | vfloat r =>
        rw [hcx] at hnf
        simp [flattenOnce, nfListElems, isListB, hnf, hnfys]
      | vbool b =>
        rw [hcx] at hnf
        simp [flattenOnce, nfListElems, isListB, hnf, hnfys]
      | vnull =>
        rw [hcx] at hnf
        simp [flattenOnce, nfListElems, isListB, hnf, hnfys]
      | vdict kvs =>
        rw [hcx] at hnf
        simp [flattenOnce, nfListElems, isListB, hnf, hnfys]
end

/-- C5: amended idempotence of the Normalizer.  The unrestricted claim
`normalize(normalize(S)) = normalize(S)` is false (see the counterexample:
a non-canonical mapping in value position needs two passes to collapse), but
it holds on every store whose dicts sitting in value position of canonical
entries are themselves canonical (`vcDict`): one pass then reaches a fixed
point, so the second pass returns its input unchanged.  The timestamp part
of the claim holds unconditionally: normalizing any entry that already
carries both `value` and `timestamp` keys keeps the existing timestamp and
never fabricates a new one. -/
theorem claim_C5_idempotent :
    (∀ (now1 now2 : String) (facts : PyDict), vcDict facts = true →
      ∃ T, normalize_facts now1 facts = .ok T ∧ normalize_facts now2 T = .ok T)
  ∧ (∀ (now : String) (kvs : PyDict) (ts e2 : PyVal),
      hasKey kvs "value" = true → lookupKv kvs "timestamp" = some ts →
      normalize_entry now (.vdict kvs) = .ok e2 →
      getItem e2 "timestamp" = .ok ts) := by
  constructor
  · intro now1 now2 facts h
    obtain ⟨T, hT, hnf⟩ := vcNormVals facts h now1
    exact ⟨T, hT, nfFixDict T hnf now2⟩
  · intro now kvs ts e2 hval hts h
    have hb : (hasKey kvs "value" && hasKey kvs "timestamp") = true := by
      simp only [hasKey] at hval ⊢
      simp [hval, hts]
    unfold normalize_entry at h
    rw [if_pos hb] at h
    cases hw : normValField now kvs with
    | error er =>
      rw [hw] at h
      simp at h
    | ok w =>
      rw [hw] at h
      simp only [exceptBindOk] at h
      rw [hts] at h
      cases h
      simp [getItem, mkEntry, lookupKv]

/-- Witness for C5 at concrete inputs: a small canonical store (a singleton
`Name` entry and a one-element `Hobby` list) normalizes to a fixed point, and
a canonical two-key entry keeps its stored timestamp. -/
theorem claim_C5_witness :
    (∃ T, normalize_facts "T1"
        (.cons "Name" (mkEntry (.vstr "Al") (.vstr "t0"))
          (.cons "Hobby"
            (.vlist (.cons (mkEntry (.vstr "chess") (.vstr "t1")) .nil)) .nil))
        = .ok T
      ∧ normalize_facts "T2" T = .ok T)
  ∧ getItem (mkEntry (.vstr "x") (.vstr "t9")) "timestamp" = .ok (.vstr "t9") :=
  ⟨claim_C5_idempotent.1 "T1" "T2"
      (.cons "Name" (mkEntry (.vstr "Al") (.vstr "t0"))
        (.cons "Hobby"
          (.vlist (.cons (mkEntry (.vstr "chess") (.vstr "t1")) .nil)) .nil))
      (by decide),
    claim_C5_idempotent.2 "T3"
      (.cons "value" (.vstr "x") (.cons "timestamp" (.vstr "t9") .nil))
      (.vstr "t9") (mkEntry (.vstr "x") (.vstr "t9")) (by decide) rfl rfl⟩

/-- The store refuting unrestricted idempotence: a non-canonical mapping in
value position, `{"X": {"value": {"value": "x"}, "timestamp": "t"}}`. -/
def c5store : PyDict :=
  .cons "X" (.vdict (.cons "value" (.vdict (.cons "value" (.vstr "x") .nil))
    (.cons "timestamp" (.vstr "t") .nil))) .nil

/-- C5 counterexample: the first pass normalizes the inner one-key mapping as
a category map, wrapping its string and leaving a dict in value position; the
second pass collapses that dict to its scalar, so the two passes disagree. -/
theorem claim_C5_counterexample :
    normalize_facts "T1" c5store
      = .ok (.cons "X" (mkEntry (mkEntry (.vstr "x") (.vstr "T1")) (.vstr "t")) .nil)
    ∧ normalize_facts "T2"
        (.cons "X" (mkEntry (mkEntry (.vstr "x") (.vstr "T1")) (.vstr "t")) .nil)
      ≠ .ok (.cons "X" (mkEntry (mkEntry (.vstr "x") (.vstr "T1")) (.vstr "t")) .nil) := by
  refine ⟨rfl, ?_⟩
  intro h
  rw [show normalize_facts "T2"
      (.cons "X" (mkEntry (mkEntry (.vstr "x") (.vstr "T1")) (.vstr "t")) .nil)
      = .ok (.cons "X" (mkEntry (.vstr "x") (.vstr "t")) .nil) from rfl] at h
  exact absurd (Except.ok.inj h) (by decide)
